import Mathlib

namespace Ars

/-- Priority order used by the largest-remainder rounding step: a store with a
strictly larger division remainder comes first; ties are broken by ascending
position in the eligible-store list (which is ordered by ascending store code).
An item is a pair (position, weight). -/
def prioLR (t W : ℕ) (a b : ℕ × ℕ) : Prop :=
  t * b.2 % W < t * a.2 % W ∨ (t * a.2 % W = t * b.2 % W ∧ a.1 ≤ b.1)

instance (t W : ℕ) : DecidableRel (prioLR t W) := fun a b => by
  unfold prioLR; infer_instance

theorem prioLR_total (t W : ℕ) : ∀ a b, prioLR t W a b ∨ prioLR t W b a := by
  intro a b
  rcases Nat.lt_trichotomy (t * a.2 % W) (t * b.2 % W) with h | h | h
  · exact Or.inr (Or.inl h)
  · rcases Nat.le_total a.1 b.1 with h2 | h2
    · exact Or.inl (Or.inr ⟨h, h2⟩)
    · exact Or.inr (Or.inr ⟨h.symm, h2⟩)
  · exact Or.inl (Or.inl h)

theorem prioLR_trans (t W : ℕ) :
    ∀ a b c, prioLR t W a b → prioLR t W b c → prioLR t W a c := by
  intro a b c hab hbc
  rcases hab with h1 | ⟨h1, h1'⟩ <;> rcases hbc with h2 | ⟨h2, h2'⟩
  · exact Or.inl (h2.trans h1)
  · exact Or.inl (h2 ▸ h1)
  · exact Or.inl (h1 ▸ h2)
  · exact Or.inr ⟨h1.trans h2, h1'.trans h2'⟩

instance (t W : ℕ) : IsTotal (ℕ × ℕ) (prioLR t W) := ⟨prioLR_total t W⟩

instance (t W : ℕ) : IsTrans (ℕ × ℕ) (prioLR t W) := ⟨prioLR_trans t W⟩

/-- A list paired with positions: used for the weights of the
largest-remainder rounding and for building indexed detail rows. -/
def lrItems {α : Type} (ws : List α) : List (ℕ × α) := (List.range ws.length).zip ws

/-- Sum of the floor parts `t * w / W` of all proportional shares. -/
def lrSumBase (t : ℕ) (ws : List ℕ) : ℕ :=
  ((lrItems ws).map (fun p => t * p.2 / ws.sum)).sum

/-- Number of leftover units after the floor parts are handed out. -/
def lrR (t : ℕ) (ws : List ℕ) : ℕ := t - lrSumBase t ws

/-- Positions of the stores that receive one extra leftover unit: the first
`lrR` stores in decreasing-remainder order, ties by ascending position. -/
def lrChosen (t : ℕ) (ws : List ℕ) : List ℕ :=
  (((lrItems ws).insertionSort (prioLR t ws.sum)).take (lrR t ws)).map Prod.fst

/-- Modelled from the spec: the largest-remainder apportionment shared by all
three Distributor strategies, the ConstraintEnforcer's rebalancing and the
GridAssembler (the repository's allocation engine backend is not part of the
visible source; this follows §4.2 of the behavioural documentation).  Store
`i` first gets `⌊t * ws[i] / Σws⌋`; the remaining units are handed out one at
a time in decreasing order of fractional remainder, ties broken by ascending
position; when every weight is zero nothing is allocated.  Weights are
naturals: rational weights are cleared of denominators beforehand, which
leaves every proportional share, and hence the result, unchanged. -/
def apportion (t : ℕ) (ws : List ℕ) : List ℕ :=
  if ws.sum = 0 then ws.map (fun _ => 0)
  else (lrItems ws).map fun p =>
    t * p.2 / ws.sum + (if p.1 ∈ lrChosen t ws then 1 else 0)

theorem lrItems_length {α : Type} (ws : List α) : (lrItems ws).length = ws.length := by
  simp [lrItems]

theorem lrItems_getElem {α : Type} (ws : List α) (i : ℕ) (h : i < (lrItems ws).length) :
    (lrItems ws)[i] = (i, (getElem ws i (by simpa [lrItems] using h))) := by
  simp [lrItems]

theorem lrItems_fst {α : Type} (ws : List α) :
    (lrItems ws).map Prod.fst = List.range ws.length := by
  exact List.map_fst_zip _ _ (by simp)

theorem lrItems_snd {α : Type} (ws : List α) : (lrItems ws).map Prod.snd = ws := by
  exact List.map_snd_zip _ _ (by simp)

theorem lrItems_mem {α : Type} (ws : List α) (p : ℕ × α) (hp : p ∈ lrItems ws) :
    ∃ h : p.1 < ws.length, p.2 = ws[p.1] := by
  rcases List.mem_iff_get.1 hp with ⟨n, hn⟩
  subst hn
  have hlen : (n : ℕ) < ws.length := by simpa [lrItems_length] using n.isLt
  have hget : (lrItems ws).get n = (↑n, ws[(n : ℕ)]) := by
    rw [List.get_eq_getElem]; exact lrItems_getElem ws n n.isLt
  rw [hget]
  exact ⟨hlen, rfl⟩

theorem apportion_length (t : ℕ) (ws : List ℕ) :
    (apportion t ws).length = ws.length := by
  unfold apportion
  split <;> simp [lrItems_length]

theorem apportion_zero (t : ℕ) (ws : List ℕ) (h : ws.sum = 0) :
    apportion t ws = ws.map (fun _ => 0) := by
  simp [apportion, h]

theorem apportion_getElem (t : ℕ) (ws : List ℕ) (hW : ws.sum ≠ 0)
    (i : ℕ) (h : i < ws.length) :
    (getElem (apportion t ws) i (by simpa [apportion_length] using h)) =
      t * ws[i] / ws.sum + (if i ∈ lrChosen t ws then 1 else 0) := by
  unfold apportion
  simp only [hW, if_false]
  rw [List.getElem_map]
  rw [lrItems_getElem]

/-- Helper: a sum of a pointwise sum of maps splits. -/
theorem sum_map_add {α : Type} (l : List α) (f g : α → ℕ) :
    (l.map (fun x => f x + g x)).sum = (l.map f).sum + (l.map g).sum := by
  induction l with
  | nil => simp
  | cons h t ih => simp [ih]; ring

/-- Helper: summing an indicator counts the satisfying elements. -/
theorem sum_map_ite {α : Type} (l : List α) (p : α → Prop) [DecidablePred p] :
    (l.map (fun x => if p x then 1 else 0)).sum = l.countP (fun x => decide (p x)) := by
  induction l with
  | nil => simp
  | cons h t ih =>
    by_cases hp : p h
    · simp [hp, ih, List.countP_cons, Nat.add_comm]
    · simp [hp, ih, List.countP_cons]

/-- Helper: sums of naturals divided pointwise are at most the divided sum. -/
theorem sum_map_div_le (W : ℕ) (l : List ℕ) : (l.map (· / W)).sum ≤ l.sum / W := by
  induction l with
  | nil => simp
  | cons h t ih =>
    simpa using le_trans (Nat.add_le_add_left ih _) (Nat.add_div_le_add_div h t.sum W)

/-- Helper: a list of naturals all below `W` sums to at most
(number of positive entries) * (W - 1). -/
theorem sum_le_countP_mul (W : ℕ) (l : List ℕ) (h : ∀ x ∈ l, x < W) :
    l.sum ≤ l.countP (fun x => decide (0 < x)) * (W - 1) := by
  induction l with
  | nil => simp
  | cons a t ih =>
    have ha := h a (by simp)
    have iht := ih (fun x hx => h x (by simp [hx]))
    by_cases hp : 0 < a
    · have ha1 : a ≤ W - 1 := by omega
      have hcount : (a :: t).countP (fun x => decide (0 < x)) =
          t.countP (fun x => decide (0 < x)) + 1 := by
        simp [List.countP_cons, hp]
      rw [List.sum_cons, hcount]
      calc a + t.sum ≤ (W - 1) + t.countP (fun x => decide (0 < x)) * (W - 1) :=
            Nat.add_le_add ha1 iht
        _ = (t.countP (fun x => decide (0 < x)) + 1) * (W - 1) := by ring
    · have ha0 : a = 0 := by omega
      have hcount : (a :: t).countP (fun x => decide (0 < x)) =
          t.countP (fun x => decide (0 < x)) := by
        simp [List.countP_cons, ha0]
      rw [List.sum_cons, hcount, ha0, Nat.zero_add]
      exact iht

theorem lrSumBase_le (t : ℕ) (ws : List ℕ) (hW : ws.sum ≠ 0) :
    lrSumBase t ws ≤ t := by
  unfold lrSumBase
  have h1 : (lrItems ws).map (fun p => t * p.2 / ws.sum) =
      ((lrItems ws).map Prod.snd).map (fun w => t * w / ws.sum) := by
    rw [List.map_map]; rfl
  have h2 : ws.map (fun w => t * w / ws.sum) =
      (ws.map (fun w => t * w)).map (· / ws.sum) := by
    rw [List.map_map]; rfl
  rw [h1, lrItems_snd ws, h2]
  refine le_trans (sum_map_div_le _ _) ?_
  have h3 : (ws.map (fun w => t * w)).sum = t * ws.sum := by
    simpa using List.sum_map_mul_left ws id t
  rw [h3, Nat.mul_div_cancel _ (Nat.pos_of_ne_zero hW)]

/-- Decomposition: the remainders of all proportional shares sum to
`ws.sum * lrR t ws`. -/
theorem sum_rem (t : ℕ) (ws : List ℕ) (hW : ws.sum ≠ 0) :
    ((lrItems ws).map (fun p => t * p.2 % ws.sum)).sum = ws.sum * lrR t ws := by
  have h1 : (lrItems ws).map (fun p => t * p.2) =
      (lrItems ws).map (fun p => ws.sum * (t * p.2 / ws.sum) + t * p.2 % ws.sum) := by
    apply List.map_congr_left
    intro p _
    exact (Nat.div_add_mod (t * p.2) ws.sum).symm
  have h2 : ((lrItems ws).map (fun p => t * p.2)).sum = t * ws.sum := by
    have hc : (lrItems ws).map (fun p => t * p.2) =
        ((lrItems ws).map Prod.snd).map (fun w => t * w) := by
      rw [List.map_map]; rfl
    rw [hc, lrItems_snd]
    simpa using List.sum_map_mul_left ws id t
  have h3 : ((lrItems ws).map
        (fun p => ws.sum * (t * p.2 / ws.sum) + t * p.2 % ws.sum)).sum
      = ws.sum * lrSumBase t ws +
        ((lrItems ws).map (fun p => t * p.2 % ws.sum)).sum := by
    rw [sum_map_add]
    congr 1
    unfold lrSumBase
    simpa using List.sum_map_mul_left (lrItems ws) (fun p => t * p.2 / ws.sum) ws.sum
  have key : t * ws.sum = ws.sum * lrSumBase t ws +
      ((lrItems ws).map (fun p => t * p.2 % ws.sum)).sum := by
    rw [← h2, h1, h3]
  have hbase := lrSumBase_le t ws hW
  have hsplit : t = lrSumBase t ws + lrR t ws := by unfold lrR; omega
  have hdist : t * ws.sum = ws.sum * lrSumBase t ws + ws.sum * lrR t ws := by
    calc t * ws.sum = ws.sum * t := Nat.mul_comm _ _
      _ = ws.sum * (lrSumBase t ws + lrR t ws) := by rw [← hsplit]
      _ = ws.sum * lrSumBase t ws + ws.sum * lrR t ws := Nat.mul_add _ _ _
  have heq : ws.sum * lrSumBase t ws +
      ((lrItems ws).map (fun p => t * p.2 % ws.sum)).sum
      = ws.sum * lrSumBase t ws + ws.sum * lrR t ws := by
    rw [← key, hdist]
  exact Nat.add_left_cancel heq

/-- The leftover count never exceeds the number of stores whose share has a
positive remainder. -/
theorem lrR_le_countP (t : ℕ) (ws : List ℕ) (hW : ws.sum ≠ 0) :
    lrR t ws ≤ (lrItems ws).countP (fun p => decide (0 < t * p.2 % ws.sum)) := by
  have hWpos : 0 < ws.sum := Nat.pos_of_ne_zero hW
  have hrem : ∀ x ∈ (lrItems ws).map (fun p => t * p.2 % ws.sum), x < ws.sum := by
    intro x hx
    rcases List.mem_map.1 hx with ⟨p, _, rfl⟩
    exact Nat.mod_lt _ hWpos
  have h1 := sum_le_countP_mul ws.sum _ hrem
  have h2 : ((lrItems ws).map (fun p => t * p.2 % ws.sum)).countP
        (fun x => decide (0 < x))
      = (lrItems ws).countP (fun p => decide (0 < t * p.2 % ws.sum)) := by
    rw [List.countP_map]; rfl
  rw [sum_rem t ws hW, h2] at h1
  set W := ws.sum with hWdef
  set P := (lrItems ws).countP (fun p => decide (0 < t * p.2 % W)) with hPdef
  by_contra hlt
  push_neg at hlt
  have hP1 : P + 1 ≤ lrR t ws := hlt
  have hchain : W * P + W ≤ W * P := by
    calc W * P + W = W * (P + 1) := by ring
      _ ≤ W * lrR t ws := Nat.mul_le_mul_left W hP1
      _ ≤ P * (W - 1) := h1
      _ ≤ P * W := Nat.mul_le_mul_left P (Nat.sub_le _ _)
      _ = W * P := Nat.mul_comm _ _
  have hle : W * P + W ≤ W * P + 0 := by simpa using hchain
  have : W ≤ 0 := Nat.le_of_add_le_add_left hle
  omega

theorem lrChosen_nodup (t : ℕ) (ws : List ℕ) : (lrChosen t ws).Nodup := by
  unfold lrChosen
  have hperm : ((lrItems ws).insertionSort (prioLR t ws.sum)).Perm (lrItems ws) :=
    List.perm_insertionSort _ _
  have h1 : (((lrItems ws).insertionSort (prioLR t ws.sum)).map Prod.fst).Nodup := by
    have hp := hperm.map Prod.fst
    rw [lrItems_fst] at hp
    exact (List.nodup_range _).perm hp.symm
  exact ((List.take_sublist _ _).map Prod.fst).nodup h1

theorem lrChosen_lt (t : ℕ) (ws : List ℕ) : ∀ i ∈ lrChosen t ws, i < ws.length := by
  intro i hi
  unfold lrChosen at hi
  rcases List.mem_map.1 hi with ⟨p, hp, hfst⟩
  have hp2 : p ∈ (lrItems ws).insertionSort (prioLR t ws.sum) :=
    (List.take_sublist _ _).subset hp
  have hp3 : p ∈ lrItems ws := (List.perm_insertionSort _ _).mem_iff.1 hp2
  rcases lrItems_mem ws p hp3 with ⟨h, _⟩
  rw [← hfst]
  exact h

theorem lrChosen_length (t : ℕ) (ws : List ℕ) (hW : ws.sum ≠ 0) :
    (lrChosen t ws).length = lrR t ws := by
  unfold lrChosen
  rw [List.length_map, List.length_take, List.length_insertionSort, lrItems_length]
  have hR := lrR_le_countP t ws hW
  have hP : (lrItems ws).countP (fun p => decide (0 < t * p.2 % ws.sum)) ≤ ws.length := by
    rw [← lrItems_length ws]
    exact List.countP_le_length _
  exact Nat.min_eq_left (le_trans hR hP)

/-- In a priority-sorted list, if at least `R` entries have a positive
remainder then every entry of the `R`-prefix has a positive remainder. -/
theorem take_pos_of_sorted (t W : ℕ) :
    ∀ (l : List (ℕ × ℕ)) (R : ℕ), List.Pairwise (prioLR t W) l →
      R ≤ l.countP (fun p => decide (0 < t * p.2 % W)) →
      ∀ p ∈ l.take R, 0 < t * p.2 % W := by
  intro l
  induction l with
  | nil => intro R _ _ p hp; simp at hp
  | cons a tl ih =>
    intro R hpw hR p hp
    rcases List.pairwise_cons.1 hpw with ⟨ha, htl⟩
    match R with
    | 0 => simp at hp
    | R' + 1 =>
      rw [List.take_succ_cons] at hp
      by_cases hpos : 0 < t * a.2 % W
      · rcases List.mem_cons.1 hp with rfl | hp'
        · exact hpos
        · have hcnt : R' ≤ tl.countP (fun p => decide (0 < t * p.2 % W)) := by
            have hc : (a :: tl).countP (fun p => decide (0 < t * p.2 % W)) =
                tl.countP (fun p => decide (0 < t * p.2 % W)) + 1 := by
              simp [List.countP_cons, hpos]
            omega
          exact ih R' htl hcnt p hp'
      · exfalso
        have hall : ∀ b ∈ tl, ¬ 0 < t * b.2 % W := by
          intro b hb hbpos
          rcases ha b hb with hltr | ⟨heq, _⟩
          · omega
          · omega
        have hc : (a :: tl).countP (fun p => decide (0 < t * p.2 % W)) = 0 := by
          rw [List.countP_eq_zero]
          intro b hb
          rcases List.mem_cons.1 hb with rfl | hb'
          · simpa using hpos
          · simpa using hall b hb'
        omega

theorem lrChosen_pos (t : ℕ) (ws : List ℕ) (hW : ws.sum ≠ 0)
    (i : ℕ) (h : i < ws.length) (hi : i ∈ lrChosen t ws) :
    0 < t * ws[i] % ws.sum := by
  unfold lrChosen at hi
  rcases List.mem_map.1 hi with ⟨p, hp, hfst⟩
  have hsorted : List.Pairwise (prioLR t ws.sum)
      ((lrItems ws).insertionSort (prioLR t ws.sum)) :=
    List.sorted_insertionSort _ _
  have hcnt : lrR t ws ≤ ((lrItems ws).insertionSort (prioLR t ws.sum)).countP
      (fun p => decide (0 < t * p.2 % ws.sum)) := by
    rw [(List.perm_insertionSort _ _).countP_eq]
    exact lrR_le_countP t ws hW
  have hpos := take_pos_of_sorted t ws.sum _ _ hsorted hcnt p hp
  have hp2 : p ∈ lrItems ws :=
    (List.perm_insertionSort _ _).mem_iff.1 ((List.take_sublist _ _).subset hp)
  rcases lrItems_mem ws p hp2 with ⟨hlt, hsnd⟩
  subst hfst
  rw [← hsnd]
  exact hpos

/-- Counting membership of a nodup list inside `range n` gives its length. -/
theorem countP_mem_range (n : ℕ) (s : List ℕ) (hnd : s.Nodup)
    (hlt : ∀ x ∈ s, x < n) :
    (List.range n).countP (fun i => decide (i ∈ s)) = s.length := by
  rw [List.countP_eq_length_filter]
  have hperm : ((List.range n).filter (fun i => decide (i ∈ s))).Perm s := by
    apply List.perm_of_nodup_nodup_toFinset_eq
    · exact (List.nodup_range n).filter _
    · exact hnd
    · ext x
      simp only [List.mem_toFinset, List.mem_filter, List.mem_range, decide_eq_true_eq]
      exact ⟨fun hx => hx.2, fun hx => ⟨hlt x hx, hx⟩⟩
  exact hperm.length_eq

/-- Exactness: with a positive total weight, largest-remainder apportionment
hands out exactly the target. -/
theorem apportion_sum (t : ℕ) (ws : List ℕ) (hW : ws.sum ≠ 0) :
    (apportion t ws).sum = t := by
  unfold apportion
  simp only [hW, if_false]
  rw [sum_map_add]
  have h1 : ((lrItems ws).map (fun p => if p.1 ∈ lrChosen t ws then 1 else 0)).sum
      = (lrItems ws).countP (fun p => decide (p.1 ∈ lrChosen t ws)) :=
    sum_map_ite _ _
  have h2 : (lrItems ws).countP (fun p => decide (p.1 ∈ lrChosen t ws))
      = (List.range ws.length).countP (fun i => decide (i ∈ lrChosen t ws)) := by
    rw [← lrItems_fst ws, List.countP_map]; rfl
  have h3 := countP_mem_range ws.length (lrChosen t ws) (lrChosen_nodup t ws)
    (lrChosen_lt t ws)
  rw [h1, h2, h3, lrChosen_length t ws hW]
  have hbase := lrSumBase_le t ws hW
  show lrSumBase t ws + lrR t ws = t
  unfold lrR
  omega

/-- The apportioned total never exceeds the target. -/
theorem apportion_sum_le (t : ℕ) (ws : List ℕ) : (apportion t ws).sum ≤ t := by
  by_cases hW : ws.sum = 0
  · rw [apportion_zero t ws hW]
    simp
  · rw [apportion_sum t ws hW]

/-- A zero-weight store receives nothing, even when leftover units exist. -/
theorem apportion_zero_weight (t : ℕ) (ws : List ℕ) (i : ℕ)
    (h : i < ws.length) (hwi : ws[i] = 0) :
    (getElem (apportion t ws) i (by simpa [apportion_length] using h)) = 0 := by
  by_cases hW : ws.sum = 0
  · have hlen : i < (ws.map (fun _ => 0)).length := by simpa using h
    rw [List.getElem_of_eq (apportion_zero t ws hW)]
    simp
  · rw [apportion_getElem t ws hW i h]
    have hni : i ∉ lrChosen t ws := by
      intro hmem
      have := lrChosen_pos t ws hW i h hmem
      rw [hwi] at this
      simp at this
    simp [hni, hwi]

/-- Each store receives its floor share or the floor share plus one unit. -/
theorem apportion_bounds (t : ℕ) (ws : List ℕ) (hW : ws.sum ≠ 0) (i : ℕ)
    (h : i < ws.length) :
    t * ws[i] / ws.sum ≤ (getElem (apportion t ws) i (by simpa [apportion_length] using h)) ∧
      (getElem (apportion t ws) i (by simpa [apportion_length] using h)) ≤ t * ws[i] / ws.sum + 1 := by
  rw [apportion_getElem t ws hW i h]
  by_cases hc : i ∈ lrChosen t ws <;> simp [hc]

/-- The extra leftover units go to stores of maximal priority: a store that
received one has a remainder at least as large as any store that did not,
and on equal remainders the earlier position (smaller store code) wins. -/
theorem apportion_priority (t : ℕ) (ws : List ℕ) (i j : ℕ)
    (hi : i < ws.length) (hj : j < ws.length)
    (hci : i ∈ lrChosen t ws) (hcj : j ∉ lrChosen t ws) :
    t * ws[j] % ws.sum < t * ws[i] % ws.sum ∨
      (t * ws[i] % ws.sum = t * ws[j] % ws.sum ∧ i ≤ j) := by
  unfold lrChosen at hci hcj
  rcases List.mem_map.1 hci with ⟨p, hp, hfst⟩
  have hq : (j, ws[j]) ∈ (lrItems ws).insertionSort (prioLR t ws.sum) := by
    apply (List.perm_insertionSort _ _).mem_iff.2
    have : (getElem (lrItems ws) j (by simpa [lrItems_length] using hj)) = (j, ws[j]) :=
      lrItems_getElem ws j (by simpa [lrItems_length] using hj)
    rw [← this]
    exact List.getElem_mem _
  have hqdrop : (j, ws[j]) ∈ ((lrItems ws).insertionSort (prioLR t ws.sum)).drop (lrR t ws) := by
    have hsplit := List.take_append_drop (lrR t ws)
      ((lrItems ws).insertionSort (prioLR t ws.sum))
    rcases List.mem_append.1 (by rw [hsplit]; exact hq) with htk | hdr
    · exfalso
      exact hcj (List.mem_map.2 ⟨(j, ws[j]), htk, rfl⟩)
    · exact hdr
  have hsorted : List.Pairwise (prioLR t ws.sum)
      ((lrItems ws).insertionSort (prioLR t ws.sum)) :=
    List.sorted_insertionSort _ _
  have hcross : ∀ a ∈ ((lrItems ws).insertionSort (prioLR t ws.sum)).take (lrR t ws),
      ∀ b ∈ ((lrItems ws).insertionSort (prioLR t ws.sum)).drop (lrR t ws),
      prioLR t ws.sum a b := by
    have hs2 := hsorted
    rw [← List.take_append_drop (lrR t ws)
      ((lrItems ws).insertionSort (prioLR t ws.sum))] at hs2
    exact (List.pairwise_append.1 hs2).2.2
  have hprio := hcross p hp (j, ws[j]) hqdrop
  have hp2 : p ∈ lrItems ws :=
    (List.perm_insertionSort _ _).mem_iff.1 ((List.take_sublist _ _).subset hp)
  rcases lrItems_mem ws p hp2 with ⟨hlt, hsnd⟩
  subst hfst
  rw [← hsnd]
  exact hprio

/-! ## Distributor (spec §4.2): weights and the three strategies -/

/-- Store grades A–D used to weight ratio-based distribution (glossary,
SQL `store_grade`). -/
inductive Grade
  | A
  | B
  | C
  | D
deriving DecidableEq

/-- Modelled from the spec (§3 GradeRatioTable): a non-negative rational
multiplier per grade, represented exactly as numerator/denominator so the
engine arithmetic stays in ℕ (clearing the denominators leaves every
proportional share unchanged). -/
structure GradeRatio where
  num : ℕ
  den : ℕ
deriving DecidableEq

/-- The rational value of a grade multiplier. -/
def GradeRatio.val (r : GradeRatio) : ℚ := (r.num : ℚ) / (r.den : ℚ)

/-- Modelled from the spec (§6 consumed interfaces): the per-store inputs the
Distributor needs — sales over the lookback window, current stock, grade
target stock, and the store grade.  The list of eligible stores is ordered by
ascending store code, so list position stands in for the store code in
tie-breaks. -/
structure Store where
  sales : ℕ
  stock : ℕ
  target : ℕ
  grade : Grade
deriving DecidableEq

/-- Allocation basis (header field `allocation_basis`: RATIO, SALES or
STOCK). -/
inductive Basis
  | ratio
  | sales
  | stockGap
deriving DecidableEq

/-- Common denominator (product) of the grade ratios along the store list. -/
def ratioDen (rt : Grade → GradeRatio) (stores : List Store) : ℕ :=
  stores.foldr (fun s acc => (rt s.grade).den * acc) 1

/-- Modelled from the spec (§4.2 ratio strategy): weight(store) =
grade_ratio[store.grade], cleared of denominators with the common
denominator `ratioDen`. -/
def ratioWeights (rt : Grade → GradeRatio) (stores : List Store) : List ℕ :=
  stores.map (fun s => (rt s.grade).num * (ratioDen rt stores / (rt s.grade).den))

/-- Modelled from the spec (§4.2 sales strategy): weight(store) = quantity
sold over the lookback window; when every eligible store sold nothing the
weights fall back to equal weighting. -/
def salesWeights (stores : List Store) : List ℕ :=
  if (stores.map Store.sales).sum = 0 then stores.map (fun _ => 1)
  else stores.map Store.sales

/-- Modelled from the spec (§4.2 stock-gap strategy): weight(store) =
max(0, target − current stock); no fallback when all weights are zero. -/
def stockGapWeights (stores : List Store) : List ℕ :=
  stores.map (fun s => s.target - s.stock)

/-- The weight vector of the selected strategy. -/
def weightsFor : Basis → (Grade → GradeRatio) → List Store → List ℕ
  | Basis.ratio, rt, stores => ratioWeights rt stores
  | Basis.sales, _, stores => salesWeights stores
  | Basis.stockGap, _, stores => stockGapWeights stores

/-- Modelled from the spec (§4.2): the Distributor's target quantity,
`min(available_stock, total_qty_limit)` with a null limit meaning
unbounded. -/
def distTarget (stock : ℕ) (limit : Option ℕ) : ℕ := min stock (limit.getD stock)

/-- Modelled from the spec (§4.2 Distributor): compute the strategy weights
and hand out the target with the shared largest-remainder rounding. -/
def distribute (b : Basis) (rt : Grade → GradeRatio) (stores : List Store)
    (stock : ℕ) (limit : Option ℕ) : List ℕ :=
  apportion (distTarget stock limit) (weightsFor b rt stores)

theorem weightsFor_length (b : Basis) (rt : Grade → GradeRatio)
    (stores : List Store) : (weightsFor b rt stores).length = stores.length := by
  cases b <;> simp [weightsFor, ratioWeights, salesWeights, stockGapWeights]
  split <;> simp

theorem distribute_length (b : Basis) (rt : Grade → GradeRatio)
    (stores : List Store) (stock : ℕ) (limit : Option ℕ) :
    (distribute b rt stores stock limit).length = stores.length := by
  rw [distribute, apportion_length, weightsFor_length]

/-! ## ConstraintEnforcer (spec §4.3) -/

/-- Clamp a quantity into `[mn, mx]`; an unbounded (null) max clamps only
from below. -/
def clampQ (mn : ℕ) (mx : Option ℕ) (q : ℕ) : ℕ :=
  max mn (match mx with | none => q | some m => min q m)

/-- Whether a store below its cap can still absorb redistributed units. -/
def canAbsorb (mx : Option ℕ) (x : ℕ) : Bool :=
  match mx with
  | none => true
  | some m => decide (x < m)

/-- Weights for redistributing a shortfall: proportional to the pre-pass
quantities of the stores below their cap, equal weights when those are all
zero; stores at their cap get weight 0. -/
def absorbWeights (mx : Option ℕ) (c : List ℕ) : List ℕ :=
  c.map (fun x => if canAbsorb mx x
    then (if (c.filter (fun y => canAbsorb mx y)).sum = 0 then 1 else x)
    else 0)

/-- Weights for removing a surplus: proportional to the quantities of the
stores above the floor; stores at the floor give nothing up. -/
def donorWeights (mn : ℕ) (c : List ℕ) : List ℕ :=
  c.map (fun x => if mn < x then x else 0)

/-- Modelled from the spec (§4.3 ConstraintEnforcer): one water-filling pass —
clamp every store into `[min_per_store, max_per_store]`, then redistribute the
resulting surplus or shortfall against the preserved total proportionally to
the pre-clamp weights of the not-yet-clamped stores, using the shared
largest-remainder rounding. -/
def passE (mn : ℕ) (mx : Option ℕ) (t : ℕ) (q : List ℕ) : List ℕ :=
  if (q.map (clampQ mn mx)).sum = t then q.map (clampQ mn mx)
  else if (q.map (clampQ mn mx)).sum < t then
    List.zipWith (fun a b => a + b) (q.map (clampQ mn mx))
      (apportion (t - (q.map (clampQ mn mx)).sum)
        (absorbWeights mx (q.map (clampQ mn mx))))
  else
    List.zipWith (fun a b => a - b) (q.map (clampQ mn mx))
      (apportion ((q.map (clampQ mn mx)).sum - t)
        (donorWeights mn (q.map (clampQ mn mx))))

/-- Modelled from the spec (§4.3): repeat passes until no store changes on a
pass or the fixed iteration cap runs out. -/
def iterE (mn : ℕ) (mx : Option ℕ) (t : ℕ) : ℕ → List ℕ → List ℕ
  | 0, q => q
  | fuel + 1, q =>
    if passE mn mx t q = q then q else iterE mn mx t fuel (passE mn mx t q)

/-- The enforcer's output: best-effort clamped quantities plus the
constraint-infeasible warning flag (spec §4.3 failure mode, §7
ConstraintInfeasibleError: a warning-level signal, never a rejection). -/
structure EnfResult where
  rows : List ℕ
  infeasible : Bool
deriving DecidableEq

/-- Modelled from the spec (§4.3 ConstraintEnforcer): water-filling passes
with a fixed iteration cap, then final total enforcement — if the clamped
total exceeds `min(available stock, total_qty_limit)` every quantity is
scaled down by the same ratio with floor + largest-remainder top-up, so the
result is never above the available-stock snapshot; infeasible minimums
(min_per_store × store count > available stock) only set the warning flag. -/
def enforce (mn : ℕ) (mx : Option ℕ) (stock : ℕ) (limit : Option ℕ)
    (q : List ℕ) : EnfResult :=
  let r := iterE mn mx q.sum (q.length + 3) q
  { rows := if min stock (limit.getD stock) < r.sum
      then apportion (min stock (limit.getD stock)) r else r
    infeasible := decide (stock < mn * q.length) }

/-! ## GridAssembler (spec §4.4) -/

/-- Modelled from the spec (§4.4 GridAssembler): split one store's
parent-level quantity across the variant list proportionally to the
historical size/color mix — equal split when no mix data exists — with the
shared largest-remainder rounding, preserving the store's exact total. -/
def splitMix (q : ℕ) (mix : List ℕ) : List ℕ :=
  apportion q (if mix.sum = 0 then mix.map (fun _ => 1) else mix)

/-- Modelled from the spec (§4.4): one row of quantities per store. -/
def assembleGrid (storeQty : List ℕ) (mix : List ℕ) : List (List ℕ) :=
  storeQty.map (fun q => splitMix q mix)

/-! ## Lifecycle (spec §4.6) and overrides (spec §4.5) -/

/-- Allocation header status (SQL `alloc_header.status`). -/
inductive Status
  | DRAFT
  | IN_PROGRESS
  | APPROVED
  | EXECUTED
  | CANCELLED
deriving DecidableEq

/-- One allocation detail row (SQL `alloc_detail`): store and variant keys,
the engine-computed quantity, the nullable manual override and the derived
final quantity. -/
structure Detail where
  store : ℕ
  variant : ℕ
  allocated_qty : ℕ
  override_qty : Option ℕ
  final_qty : ℕ
deriving DecidableEq

/-- The mutable state of one allocation header: status, aggregate total and
the owned detail rows. -/
structure HeaderState where
  status : Status
  total_qty : ℕ
  constraint_infeasible : Bool
  details : List Detail
deriving DecidableEq

/-- Override precedence (spec §3): final quantity is the override when
present, the engine-computed quantity otherwise. -/
def finalOf (d : Detail) : ℕ := d.override_qty.getD d.allocated_qty

/-- Modelled from the spec (§4.6): approve requires DRAFT status and a
positive total; otherwise StateError. -/
def approve (h : HeaderState) : Option HeaderState :=
  if h.status = Status.DRAFT ∧ 0 < h.total_qty
  then some { h with status := Status.APPROVED } else none

/-- Modelled from the spec (§4.6): execute requires APPROVED status;
otherwise StateError. -/
def execute (h : HeaderState) : Option HeaderState :=
  if h.status = Status.APPROVED
  then some { h with status := Status.EXECUTED } else none

/-- Modelled from the spec (§4.6): cancel is allowed from DRAFT, IN_PROGRESS
or APPROVED and fails on the terminal states; otherwise StateError. -/
def cancel (h : HeaderState) : Option HeaderState :=
  if h.status = Status.DRAFT ∨ h.status = Status.IN_PROGRESS ∨
      h.status = Status.APPROVED
  then some { h with status := Status.CANCELLED } else none

/-- The persisted header after a lifecycle call: the new state on success,
the unchanged old state when the call failed with StateError. -/
def afterCall (f : HeaderState → Option HeaderState) (h : HeaderState) :
    HeaderState :=
  (f h).getD h

/-- Modelled from the spec (§4.5 OverrideManager): allowed only in DRAFT or
APPROVED; sets override_qty on the rows named by position, recomputes every
final_qty as override if present else allocated, and recomputes the header
total as the sum of final quantities. -/
def applyOverrides (st : HeaderState) (ovs : List (ℕ × ℕ)) :
    Option HeaderState :=
  if st.status = Status.DRAFT ∨ st.status = Status.APPROVED then
    let ds := (lrItems st.details).map (fun p =>
      match ovs.lookup p.1 with
      | some v => { p.2 with override_qty := some v, final_qty := v }
      | none => { p.2 with final_qty := finalOf p.2 })
    some { status := st.status, total_qty := (ds.map Detail.final_qty).sum
           constraint_infeasible := st.constraint_infeasible, details := ds }
  else none

/-! ## The run pipeline (spec §2 control flow, §6 `run`) -/

/-- Per-variant inputs of one run: the available-stock snapshot and the
historical mix weight of the variant. -/
structure VariantInfo where
  stock : ℕ
  mix : ℕ
deriving DecidableEq

/-- The run configuration fields the engine consumes (header config plus the
ConstraintSet of spec §3). -/
structure RunConfig where
  basis : Basis
  ratios : Grade → GradeRatio
  min_per_store : ℕ
  max_per_store : Option ℕ
  total_qty_limit : Option ℕ

/-- Modelled from the spec (§2, §6): a full allocation run — Distributor on
the parent-level stock pool, ConstraintEnforcer, GridAssembler, then the
detail rows are created in bulk with final_qty = allocated_qty and the header
returns to DRAFT with recomputed aggregates and the enforcer's warning
flag. -/
def runAllocation (cfg : RunConfig) (stores : List Store)
    (variants : List VariantInfo) : HeaderState :=
  let stock := (variants.map VariantInfo.stock).sum
  let raw := distribute cfg.basis cfg.ratios stores stock cfg.total_qty_limit
  let enf := enforce cfg.min_per_store cfg.max_per_store stock
    cfg.total_qty_limit raw
  let grid := assembleGrid enf.rows (variants.map VariantInfo.mix)
  let ds := (lrItems grid).flatMap (fun p => (lrItems p.2).map (fun v =>
    { store := p.1, variant := v.1, allocated_qty := v.2,
      override_qty := none, final_qty := v.2 }))
  { status := Status.DRAFT, total_qty := (ds.map Detail.final_qty).sum
    constraint_infeasible := enf.infeasible, details := ds }

/-- Sum of final quantities across all stores for one variant of a header:
the quantity the per-variant reading of the stock invariant bounds. -/
def variantFinalSum (st : HeaderState) (v : ℕ) : ℕ :=
  ((st.details.filter (fun d => decide (d.variant = v))).map Detail.final_qty).sum

/-! ## NewAllocationPage form (src/unnamed/part_006) -/

/-- The constraint-relevant state of the NewAllocationPage form
(src/unnamed/part_006, `useState` initializer lines 120–133).  Nullable
numeric inputs are `Option ℤ` with `none` for JavaScript null. -/
structure AllocForm where
  min_per_store : ℤ
  max_per_store : Option ℤ
  total_qty_limit : Option ℤ
  lookback_days : ℤ
deriving DecidableEq

/-- The initial form state of NewAllocationPage: min_per_store starts at 1;
max_per_store and total_qty_limit start at null; lookback_days at 30. -/
def initialForm : AllocForm :=
  { min_per_store := 1, max_per_store := none, total_qty_limit := none,
    lookback_days := 30 }

/-- JavaScript `x || null` on a number-or-null field: 0 and null are falsy
and become null; any other number is kept. -/
def orNull (v : Option ℤ) : Option ℤ :=
  match v with
  | some n => if n = 0 then none else some n
  | none => none

/-- The run payload built by `handleSubmit` (src/unnamed/part_006 lines
144–149): the form fields with `max_per_store` and `total_qty_limit` mapped
through `x || null`. -/
def buildRunPayload (f : AllocForm) : AllocForm :=
  { f with max_per_store := orNull f.max_per_store,
           total_qty_limit := orNull f.total_qty_limit }

/-- Helper: a constant-one map sums to the length. -/
theorem sum_map_one {α : Type} (l : List α) : (l.map (fun _ => 1)).sum = l.length := by
  induction l with
  | nil => simp
  | cons a t ih => simp [ih, Nat.add_comm]

/-- C2: for every strategy, when the strategy weights have a positive sum the
allocated quantities sum exactly to min(available_stock, total_qty_limit);
when the weight sum is zero every store receives 0. -/
theorem C2_exact_total (b : Basis) (rt : Grade → GradeRatio)
    (stores : List Store) (stock : ℕ) (limit : Option ℕ) :
    (0 < (weightsFor b rt stores).sum →
      (distribute b rt stores stock limit).sum = min stock (limit.getD stock)) ∧
    ((weightsFor b rt stores).sum = 0 →
      ∀ q ∈ distribute b rt stores stock limit, q = 0) := by
  constructor
  · intro hW
    rw [distribute, apportion_sum _ _ (Nat.pos_iff_ne_zero.1 hW)]
    rfl
  · intro h0 q hq
    rw [distribute, apportion_zero _ _ h0] at hq
    rcases List.mem_map.1 hq with ⟨_, _, rfl⟩
    rfl

/-- C2 witness: a concrete sales-basis run with positive weights allocates
exactly min(stock, limit), and a stock-gap run with all stores at target
allocates zero everywhere. -/
theorem C2_exact_total_witness :
    (distribute Basis.sales (fun _ => ⟨1, 1⟩)
        [⟨3, 0, 0, Grade.A⟩, ⟨1, 0, 0, Grade.B⟩] 10 (some 7)).sum = 7 ∧
    (∀ q ∈ distribute Basis.stockGap (fun _ => ⟨1, 1⟩)
        [⟨0, 5, 5, Grade.A⟩, ⟨0, 9, 4, Grade.B⟩] 10 none, q = 0) := by
  constructor
  · have h := (C2_exact_total Basis.sales (fun _ => ⟨1, 1⟩)
      [⟨3, 0, 0, Grade.A⟩, ⟨1, 0, 0, Grade.B⟩] 10 (some 7)).1 (by decide)
    simpa using h
  · exact (C2_exact_total Basis.stockGap (fun _ => ⟨1, 1⟩)
      [⟨0, 5, 5, Grade.A⟩, ⟨0, 9, 4, Grade.B⟩] 10 none).2 (by decide)

/-- C3: approve succeeds exactly from DRAFT with positive total, execute
exactly from APPROVED, cancel exactly from DRAFT/IN_PROGRESS/APPROVED (so it
fails on EXECUTED and CANCELLED), and every failed call leaves the persisted
header unchanged. -/
theorem C3_lifecycle (h : HeaderState) :
    ((approve h).isSome ↔ (h.status = Status.DRAFT ∧ 0 < h.total_qty)) ∧
    ((execute h).isSome ↔ h.status = Status.APPROVED) ∧
    ((cancel h).isSome ↔ (h.status = Status.DRAFT ∨
      h.status = Status.IN_PROGRESS ∨ h.status = Status.APPROVED)) ∧
    ((h.status = Status.EXECUTED ∨ h.status = Status.CANCELLED) →
      cancel h = none) ∧
    (approve h = none → afterCall approve h = h) ∧
    (execute h = none → afterCall execute h = h) ∧
    (cancel h = none → afterCall cancel h = h) := by
  rcases h with ⟨st, tq, ci, ds⟩
  by_cases htq : 0 < tq <;>
    cases st <;> simp [approve, execute, cancel, afterCall, htq]

/-- C3 witness: on an EXECUTED header cancel fails and the persisted header
is unchanged, and approve fails on a DRAFT header with zero total. -/
theorem C3_lifecycle_witness :
    cancel ⟨Status.EXECUTED, 5, false, []⟩ = none ∧
    afterCall cancel ⟨Status.EXECUTED, 5, false, []⟩ =
      (⟨Status.EXECUTED, 5, false, []⟩ : HeaderState) ∧
    ¬ (approve ⟨Status.DRAFT, 0, false, []⟩).isSome := by
  refine ⟨by decide, ?_, ?_⟩
  · exact (C3_lifecycle _).2.2.2.2.2.2 (by decide)
  · intro hs
    have h := ((C3_lifecycle ⟨Status.DRAFT, 0, false, []⟩).1).1 hs
    exact absurd h.2 (by decide)

/-- C4: detail rows produced by a run and by applyOverrides always satisfy
final_qty = override_qty when present else allocated_qty; lifecycle calls do
not touch detail rows; and after a successful applyOverrides the header
total equals the sum of final quantities. -/
theorem C4_override_precedence (cfg : RunConfig) (stores : List Store)
    (variants : List VariantInfo) (st st2 : HeaderState) (ovs : List (ℕ × ℕ))
    (h : applyOverrides st ovs = some st2) :
    (∀ d ∈ (runAllocation cfg stores variants).details,
      d.final_qty = d.override_qty.getD d.allocated_qty) ∧
    (afterCall approve st).details = st.details ∧
    (afterCall execute st).details = st.details ∧
    (afterCall cancel st).details = st.details ∧
    (∀ d ∈ st2.details, d.final_qty = d.override_qty.getD d.allocated_qty) ∧
    st2.total_qty = (st2.details.map Detail.final_qty).sum := by
  refine ⟨?_, ?_, ?_, ?_, ?_, ?_⟩
  · intro d hd
    rw [runAllocation] at hd
    simp only [List.mem_flatMap, List.mem_map] at hd
    rcases hd with ⟨p, _, v, _, rfl⟩
    rfl
  · rcases st with ⟨s, tq, ci, ds⟩
    by_cases htq : 0 < tq <;> cases s <;> simp [approve, afterCall, htq]
  · rcases st with ⟨s, tq, ci, ds⟩; cases s <;> simp [execute, afterCall]
  · rcases st with ⟨s, tq, ci, ds⟩; cases s <;> simp [cancel, afterCall]
  · intro d hd
    rw [applyOverrides] at h
    split at h
    · rcases Option.some.inj h with rfl
      simp only at hd
      rcases List.mem_map.1 hd with ⟨p, _, rfl⟩
      cases hl : ovs.lookup p.1 <;> simp [hl, finalOf]
    · exact absurd h (by simp)
  · rw [applyOverrides] at h
    split at h
    · rcases Option.some.inj h with rfl
      rfl
    · exact absurd h (by simp)

/-- C4 witness: overriding the single row of a concrete run to 7 yields a row
with final_qty 7 and a header total of 7. -/
theorem C4_override_precedence_witness :
    (∀ d ∈ ((⟨Status.DRAFT, 7, false, [⟨0, 0, 10, some 7, 7⟩]⟩ :
        HeaderState)).details,
      d.final_qty = d.override_qty.getD d.allocated_qty) ∧
    ((⟨Status.DRAFT, 7, false, [⟨0, 0, 10, some 7, 7⟩]⟩ :
        HeaderState)).total_qty =
      (([⟨0, 0, 10, some 7, 7⟩] : List Detail).map Detail.final_qty).sum := by
  have h := C4_override_precedence
    ⟨Basis.ratio, fun _ => ⟨1, 1⟩, 0, none, none⟩
    [⟨0, 0, 0, Grade.A⟩] [⟨10, 1⟩]
    ⟨Status.DRAFT, 10, false, [⟨0, 0, 10, none, 10⟩]⟩
    ⟨Status.DRAFT, 7, false, [⟨0, 0, 10, some 7, 7⟩]⟩
    [(0, 7)] (by decide)
  exact ⟨h.2.2.2.2.1, h.2.2.2.2.2⟩

/-- C9 counterexample: the only run-configuration builder in the source, the
NewAllocationPage form, initializes min_per_store to 1, so an unspecified
min_per_store is submitted as 1, not 0. -/
theorem C9_default_counterexample :
    initialForm.min_per_store = 1 ∧ initialForm.min_per_store ≠ 0 := by decide

/-- C9 amended: in the New Allocation form an unspecified min_per_store
defaults to 1, while max_per_store and total_qty_limit default to null
(unbounded), and lookback_days to 30. -/
theorem C9_default_amended :
    initialForm.min_per_store = 1 ∧ initialForm.max_per_store = none ∧
    initialForm.total_qty_limit = none ∧ initialForm.lookback_days = 30 := by
  decide

/-- C10: the submitted payload maps a zero or null max_per_store and
total_qty_limit to null, so no run request can carry a zero-unit cap. -/
theorem C10_zero_caps_become_null (f : AllocForm) :
    (buildRunPayload f).max_per_store ≠ some 0 ∧
    (buildRunPayload f).total_qty_limit ≠ some 0 ∧
    (f.max_per_store = some 0 → (buildRunPayload f).max_per_store = none) ∧
    (f.total_qty_limit = some 0 → (buildRunPayload f).total_qty_limit = none) ∧
    (f.max_per_store = none → (buildRunPayload f).max_per_store = none) ∧
    (f.total_qty_limit = none → (buildRunPayload f).total_qty_limit = none) ∧
    (∀ n, n ≠ 0 → f.max_per_store = some n →
      (buildRunPayload f).max_per_store = some n) := by
  rcases f with ⟨mn, mx, tl, lb⟩
  refine ⟨?_, ?_, ?_, ?_, ?_, ?_, ?_⟩
  · cases mx with
    | none => simp [buildRunPayload, orNull]
    | some n =>
      by_cases hn : n = 0 <;> simp [buildRunPayload, orNull, hn]
  · cases tl with
    | none => simp [buildRunPayload, orNull]
    | some n =>
      by_cases hn : n = 0 <;> simp [buildRunPayload, orNull, hn]
  · intro h; subst h; simp [buildRunPayload, orNull]
  · intro h; subst h; simp [buildRunPayload, orNull]
  · intro h; subst h; simp [buildRunPayload, orNull]
  · intro h; subst h; simp [buildRunPayload, orNull]
  · intro n hn h; subst h; simp [buildRunPayload, orNull, hn]

/-- C10 witness: a form configured with max_per_store = 0 and
total_qty_limit = 0 submits both as null. -/
theorem C10_zero_caps_become_null_witness :
    (buildRunPayload ⟨1, some 0, some 0, 30⟩).max_per_store = none ∧
    (buildRunPayload ⟨1, some 0, some 0, 30⟩).total_qty_limit = none := by
  refine ⟨?_, ?_⟩
  · exact (C10_zero_caps_become_null _).2.2.1 (by decide)
  · exact (C10_zero_caps_become_null _).2.2.2.1 (by decide)

/-- C6: with the SALES basis, if every eligible store has zero sales the
weights fall back to equal weighting, so the allocation is an equal split
(each store gets ⌊t/n⌋ or ⌊t/n⌋+1 and the total is exact); otherwise a store
with zero sales gets weight 0 and hence allocated_qty 0. -/
theorem C6_sales_fallback (rt : Grade → GradeRatio) (stores : List Store)
    (stock : ℕ) (limit : Option ℕ) :
    ((stores ≠ [] ∧ ∀ s ∈ stores, s.sales = 0) →
      (distribute Basis.sales rt stores stock limit).sum =
        min stock (limit.getD stock) ∧
      (∀ i (h : i < stores.length),
        distTarget stock limit / stores.length ≤
          (getElem (distribute Basis.sales rt stores stock limit) i (by simpa [distribute_length] using h)) ∧
        (getElem (distribute Basis.sales rt stores stock limit) i (by simpa [distribute_length] using h)) ≤
          distTarget stock limit / stores.length + 1)) ∧
    ((∃ s ∈ stores, s.sales ≠ 0) →
      ∀ i (h : i < stores.length), stores[i].sales = 0 →
        (getElem (distribute Basis.sales rt stores stock limit) i (by simpa [distribute_length] using h)) = 0) := by
  constructor
  · rintro ⟨hne, hzero⟩
    have hz : (stores.map Store.sales).sum = 0 := by
      rw [List.sum_eq_zero_iff]
      intro x hx
      rcases List.mem_map.1 hx with ⟨s, hs, rfl⟩
      exact hzero s hs
    have hws : weightsFor Basis.sales rt stores = stores.map (fun _ => 1) := by
      simp [weightsFor, salesWeights, hz]
    have hsum : (weightsFor Basis.sales rt stores).sum = stores.length := by
      rw [hws, sum_map_one]
    have hWne : (weightsFor Basis.sales rt stores).sum ≠ 0 := by
      rw [hsum]
      simpa [List.length_eq_zero] using hne
    constructor
    · rw [distribute, apportion_sum _ _ hWne]
      rfl
    · intro i h
      have hlen : i < (weightsFor Basis.sales rt stores).length := by
        simpa [weightsFor_length] using h
      have hone : (getElem (weightsFor Basis.sales rt stores) i hlen) = 1 := by
        simp [hws]
      have hb := apportion_bounds (distTarget stock limit)
        (weightsFor Basis.sales rt stores) hWne i hlen
      rw [hone, hsum] at hb
      simpa [distribute, Nat.mul_one] using hb
  · rintro ⟨s0, hs0, hs0ne⟩ i h hzero
    have hz : (stores.map Store.sales).sum ≠ 0 := by
      intro hz
      exact hs0ne ((List.sum_eq_zero_iff.1 hz) _ (List.mem_map_of_mem _ hs0))
    have hws : weightsFor Basis.sales rt stores = stores.map Store.sales := by
      simp [weightsFor, salesWeights, hz]
    have hlen : i < (weightsFor Basis.sales rt stores).length := by
      simpa [weightsFor_length] using h
    have hwi : (getElem (weightsFor Basis.sales rt stores) i hlen) = 0 := by
      simp [hws, hzero]
    have := apportion_zero_weight (distTarget stock limit)
      (weightsFor Basis.sales rt stores) i hlen hwi
    simpa [distribute] using this

/-- C6 witness: two stores with zero sales split 10 units 5/5; and with sales
[0, 7] the zero-sales store receives 0. -/
theorem C6_sales_fallback_witness :
    5 ≤ (getElem (distribute Basis.sales (fun _ => ⟨1, 1⟩)
        [⟨0, 0, 0, Grade.A⟩, ⟨0, 0, 0, Grade.B⟩] 10 none) 0 (by simp [distribute_length])) ∧
    (distribute Basis.sales (fun _ => ⟨1, 1⟩)
        [⟨0, 0, 0, Grade.A⟩, ⟨0, 0, 0, Grade.B⟩] 10 none).sum = 10 ∧
    (getElem (distribute Basis.sales (fun _ => ⟨1, 1⟩)
        [⟨0, 0, 0, Grade.A⟩, ⟨7, 0, 0, Grade.B⟩] 10 none) 0 (by simp [distribute_length])) = 0 := by
  refine ⟨?_, ?_, ?_⟩
  · have h := ((C6_sales_fallback (fun _ => ⟨1, 1⟩)
      [⟨0, 0, 0, Grade.A⟩, ⟨0, 0, 0, Grade.B⟩] 10 none).1
      (by decide)).2 0 (by decide)
    exact le_trans (by decide) h.1
  · have h := ((C6_sales_fallback (fun _ => ⟨1, 1⟩)
      [⟨0, 0, 0, Grade.A⟩, ⟨0, 0, 0, Grade.B⟩] 10 none).1
      (by decide)).1
    simpa using h
  · exact (C6_sales_fallback (fun _ => ⟨1, 1⟩)
      [⟨0, 0, 0, Grade.A⟩, ⟨7, 0, 0, Grade.B⟩] 10 none).2
      (by refine ⟨⟨7, 0, 0, Grade.B⟩, by decide, by decide⟩) 0 (by decide)
      (by decide)

theorem ratioDen_dvd (rt : Grade → GradeRatio) (stores : List Store) :
    ∀ s ∈ stores, (rt s.grade).den ∣ ratioDen rt stores := by
  induction stores with
  | nil => simp
  | cons a tl ih =>
    intro s hs
    rcases List.mem_cons.1 hs with rfl | hs'
    · exact dvd_mul_right _ _
    · exact Dvd.dvd.mul_left (ih s hs') _

theorem ratioDen_ne_zero (rt : Grade → GradeRatio) (stores : List Store)
    (hden : ∀ s ∈ stores, (rt s.grade).den ≠ 0) : ratioDen rt stores ≠ 0 := by
  induction stores with
  | nil => simp [ratioDen]
  | cons a tl ih =>
    have h1 := hden a (List.mem_cons_self a tl)
    have h2 := ih (fun s hs => hden s (List.mem_cons_of_mem _ hs))
    exact mul_ne_zero h1 h2

theorem ratioWeight_cast (rt : Grade → GradeRatio) (stores : List Store)
    (hden : ∀ s ∈ stores, (rt s.grade).den ≠ 0) (s : Store) (hs : s ∈ stores) :
    (((rt s.grade).num * (ratioDen rt stores / (rt s.grade).den) : ℕ) : ℚ)
      = (rt s.grade).val * (ratioDen rt stores : ℚ) := by
  have hdvd := ratioDen_dvd rt stores s hs
  have hne : ((rt s.grade).den : ℚ) ≠ 0 := Nat.cast_ne_zero.2 (hden s hs)
  rw [Nat.cast_mul, Nat.cast_div hdvd hne, GradeRatio.val]
  ring

theorem ratioWeights_sum_cast (rt : Grade → GradeRatio) (stores : List Store)
    (hden : ∀ s ∈ stores, (rt s.grade).den ≠ 0) :
    ((ratioWeights rt stores).sum : ℚ)
      = ((stores.map (fun s => (rt s.grade).val)).sum) * (ratioDen rt stores : ℚ) := by
  rw [ratioWeights, Nat.cast_list_sum, List.map_map]
  have h : stores.map (Nat.cast ∘ fun s =>
        (rt s.grade).num * (ratioDen rt stores / (rt s.grade).den))
      = stores.map (fun s => (rt s.grade).val * (ratioDen rt stores : ℚ)) := by
    apply List.map_congr_left
    intro s hs
    exact ratioWeight_cast rt stores hden s hs
  rw [h, List.sum_map_mul_right]

theorem ratioWeights_getElem_cast (rt : Grade → GradeRatio) (stores : List Store)
    (hden : ∀ s ∈ stores, (rt s.grade).den ≠ 0) (i : ℕ) (h : i < stores.length) :
    (((getElem (ratioWeights rt stores) i (by simpa [ratioWeights] using h))) : ℚ)
      = (rt (stores[i].grade)).val * (ratioDen rt stores : ℚ) := by
  have hg : (getElem (ratioWeights rt stores) i (by simpa [ratioWeights] using h))
      = (rt (stores[i].grade)).num *
        (ratioDen rt stores / (rt (stores[i].grade)).den) := by
    simp [ratioWeights]
  rw [hg]
  exact ratioWeight_cast rt stores hden stores[i] (List.getElem_mem h)

theorem ratio_share_eq (rt : Grade → GradeRatio) (stores : List Store)
    (hden : ∀ s ∈ stores, (rt s.grade).den ≠ 0)
    (hW : (ratioWeights rt stores).sum ≠ 0) (t : ℕ) (i : ℕ)
    (h : i < stores.length) :
    ((t * ((getElem (ratioWeights rt stores) i (by simpa [ratioWeights] using h))) : ℕ) : ℚ)
        / ((ratioWeights rt stores).sum : ℚ)
      = (t : ℚ) * (rt stores[i].grade).val /
        ((stores.map (fun s => (rt s.grade).val)).sum) := by
  have hV : ((stores.map (fun s => (rt s.grade).val)).sum) ≠ 0 := by
    intro h0
    apply hW
    have hc := ratioWeights_sum_cast rt stores hden
    rw [h0, zero_mul] at hc
    exact_mod_cast hc
  have hD : (ratioDen rt stores : ℚ) ≠ 0 :=
    Nat.cast_ne_zero.2 (ratioDen_ne_zero rt stores hden)
  rw [Nat.cast_mul, ratioWeights_getElem_cast rt stores hden i h,
    ratioWeights_sum_cast rt stores hden]
  field_simp
  ring

theorem ratio_floor_eq (rt : Grade → GradeRatio) (stores : List Store)
    (hden : ∀ s ∈ stores, (rt s.grade).den ≠ 0)
    (hW : (ratioWeights rt stores).sum ≠ 0) (t : ℕ) (i : ℕ)
    (h : i < stores.length) :
    t * ((getElem (ratioWeights rt stores) i (by simpa [ratioWeights] using h))) /
        (ratioWeights rt stores).sum
      = ⌊(t : ℚ) * (rt stores[i].grade).val /
          ((stores.map (fun s => (rt s.grade).val)).sum)⌋₊ := by
  rw [← ratio_share_eq rt stores hden hW t i h]
  rw [Nat.floor_div_nat, Nat.floor_natCast]

/-- Fractional part of a natural fraction is the remainder over the
denominator. -/
theorem fract_cast_div (x W : ℕ) (hW : W ≠ 0) :
    Int.fract ((x : ℚ) / (W : ℚ)) = ((x % W : ℕ) : ℚ) / (W : ℚ) := by
  have hWq : (W : ℚ) ≠ 0 := Nat.cast_ne_zero.2 hW
  have hWpos : (0 : ℚ) < W := by positivity
  conv_lhs => rw [← Nat.div_add_mod x W]
  push_cast
  rw [add_div, mul_div_cancel_left₀ _ hWq]
  have hcast : ((x / W : ℕ) : ℚ) = (((x / W : ℕ) : ℤ) : ℚ) :=
    (Int.cast_natCast _).symm
  rw [hcast, Int.fract_int_add]
  rw [Int.fract_eq_self.2 ⟨by positivity, ?_⟩]
  rw [div_lt_one hWpos]
  exact_mod_cast Nat.mod_lt x (Nat.pos_of_ne_zero hW)

/-- Whether a store received one of the leftover units. -/
theorem apportion_extra_iff (t : ℕ) (ws : List ℕ) (hW : ws.sum ≠ 0) (i : ℕ)
    (h : i < ws.length) :
    ((getElem (apportion t ws) i (by simpa [apportion_length] using h)) =
        t * ws[i] / ws.sum + 1 ↔ i ∈ lrChosen t ws) := by
  rw [apportion_getElem t ws hW i h]
  by_cases hc : i ∈ lrChosen t ws <;> simp [hc]

/-- The proportional share of one store under the ratio strategy:
available_stock × grade_ratio[grade] / Σ grade ratios (spec §4.2). -/
def ratioShare (rt : Grade → GradeRatio) (stores : List Store) (stock : ℕ)
    (i : ℕ) (h : i < stores.length) : ℚ :=
  (stock : ℚ) * (rt (stores[i].grade)).val /
    ((stores.map (fun s => (rt s.grade).val)).sum)

/-- The grade-ratio table of scenario A: ratios 1.0, 0.7, 0.4, 0.2. -/
def scenRatios : Grade → GradeRatio
  | Grade.A => ⟨10, 10⟩
  | Grade.B => ⟨7, 10⟩
  | Grade.C => ⟨4, 10⟩
  | Grade.D => ⟨2, 10⟩

/-- The three stores of scenario A, graded A, B, C, listed in ascending
store-code order. -/
def scenStores : List Store :=
  [⟨0, 0, 0, Grade.A⟩, ⟨0, 0, 0, Grade.B⟩, ⟨0, 0, 0, Grade.C⟩]

/-- C5: the ratio strategy gives each store the floor of
available_stock × grade_ratio / Σ weights; the leftover units go to the
stores of strictly larger fractional remainder, ties broken by ascending
store position; the total is exactly the available stock; and scenario A
(grades A/B/C, ratios 1.0/0.7/0.4, stock 100) yields 48/33/19. -/
theorem C5_ratio_strategy :
    (∀ (rt : Grade → GradeRatio) (stores : List Store) (stock : ℕ),
      (∀ s ∈ stores, (rt s.grade).den ≠ 0) →
      0 < (ratioWeights rt stores).sum →
      (distribute Basis.ratio rt stores stock none).sum = stock ∧
      (∀ i (h : i < stores.length),
        ⌊ratioShare rt stores stock i h⌋₊ ≤
          (getElem (distribute Basis.ratio rt stores stock none) i (by simpa [distribute_length] using h)) ∧
        (getElem (distribute Basis.ratio rt stores stock none) i (by simpa [distribute_length] using h)) ≤
          ⌊ratioShare rt stores stock i h⌋₊ + 1) ∧
      (∀ i j (hi : i < stores.length) (hj : j < stores.length),
        (getElem (distribute Basis.ratio rt stores stock none) i (by simpa [distribute_length] using hi)) =
          ⌊ratioShare rt stores stock i hi⌋₊ + 1 →
        (getElem (distribute Basis.ratio rt stores stock none) j (by simpa [distribute_length] using hj)) =
          ⌊ratioShare rt stores stock j hj⌋₊ →
        Int.fract (ratioShare rt stores stock j hj) <
            Int.fract (ratioShare rt stores stock i hi) ∨
          (Int.fract (ratioShare rt stores stock i hi) =
              Int.fract (ratioShare rt stores stock j hj) ∧ i ≤ j))) ∧
    (distribute Basis.ratio scenRatios scenStores 100 none = [48, 33, 19] ∧
      (distribute Basis.ratio scenRatios scenStores 100 none).sum = 100 ∧
      (scenRatios Grade.A).val = 1 ∧ (scenRatios Grade.B).val = 7 / 10 ∧
      (scenRatios Grade.C).val = 2 / 5) := by
  constructor
  · intro rt stores stock hden hWpos
    have hW : (ratioWeights rt stores).sum ≠ 0 := Nat.pos_iff_ne_zero.1 hWpos
    have hws : weightsFor Basis.ratio rt stores = ratioWeights rt stores := rfl
    have htarget : distTarget stock none = stock := by
      simp [distTarget]
    have hlen : ∀ i, i < stores.length → i < (ratioWeights rt stores).length := by
      intro i h
      simpa [ratioWeights] using h
    have hfl : ∀ i (h : i < stores.length),
        distTarget stock none * ((getElem (ratioWeights rt stores) i (hlen i h))) /
          (ratioWeights rt stores).sum = ⌊ratioShare rt stores stock i h⌋₊ := by
      intro i h
      rw [ratio_floor_eq rt stores hden hW (distTarget stock none) i h,
        ratioShare, htarget]
    refine ⟨?_, ?_, ?_⟩
    · rw [distribute, hws, apportion_sum _ _ hW, htarget]
    · intro i h
      have hb := apportion_bounds (distTarget stock none)
        (ratioWeights rt stores) hW i (hlen i h)
      rw [← hfl i h]
      simp only [distribute, hws]
      exact hb
    · intro i j hi hj hplus hbase
      simp only [distribute, hws] at hplus hbase
      rw [← hfl i hi] at hplus
      rw [← hfl j hj] at hbase
      have hmi : i ∈ lrChosen (distTarget stock none) (ratioWeights rt stores) :=
        (apportion_extra_iff _ _ hW i (hlen i hi)).1 hplus
      have hmj : j ∉ lrChosen (distTarget stock none) (ratioWeights rt stores) := by
        intro hmem
        have hx := (apportion_extra_iff _ _ hW j (hlen j hj)).2 hmem
        rw [hbase] at hx
        omega
      have hprio := apportion_priority (distTarget stock none)
        (ratioWeights rt stores) i j (hlen i hi) (hlen j hj) hmi hmj
      have hWqpos : (0 : ℚ) < ((ratioWeights rt stores).sum : ℚ) := by
        exact_mod_cast hWpos
      have hfr : ∀ k (hk : k < stores.length),
          Int.fract (ratioShare rt stores stock k hk) =
            ((distTarget stock none *
                ((getElem (ratioWeights rt stores) k (hlen k hk))) %
                (ratioWeights rt stores).sum : ℕ) : ℚ) /
              ((ratioWeights rt stores).sum : ℚ) := by
        intro k hk
        have hsh := ratio_share_eq rt stores hden hW (distTarget stock none) k hk
        have hcast : ((distTarget stock none : ℕ) : ℚ) = (stock : ℚ) := by
          rw [htarget]
        rw [ratioShare, ← hcast, ← hsh]
        exact fract_cast_div _ _ hW
      rw [hfr i hi, hfr j hj]
      rcases hprio with hlt | ⟨heq, hle⟩
      · left
        rw [div_lt_div_iff_of_pos_right hWqpos]
        exact_mod_cast hlt
      · right
        refine ⟨?_, hle⟩
        congr 1
        exact_mod_cast heq
  · refine ⟨by decide, by decide, ?_, ?_, ?_⟩ <;>
      norm_num [scenRatios, GradeRatio.val]

/-- C5 witness: the general ratio-strategy theorem applied to scenario A
gives the exact total of 100. -/
theorem C5_ratio_strategy_witness :
    0 < (ratioWeights scenRatios scenStores).sum ∧
    (distribute Basis.ratio scenRatios scenStores 100 none).sum = 100 :=
  ⟨by decide,
    (C5_ratio_strategy.1 scenRatios scenStores 100 (by decide) (by decide)).1⟩

/-- Helper: the sum of a flattened list of lists is the sum of the row
sums. -/
theorem sum_flatMap {α : Type} (l : List α) (f : α → List ℕ) :
    (l.flatMap f).sum = (l.map (fun x => (f x).sum)).sum := by
  induction l with
  | nil => simp
  | cons a tl ih => simp [List.flatMap_cons, List.sum_append, ih]

/-- A store's split across variants never exceeds the store's quantity. -/
theorem splitMix_sum_le (q : ℕ) (mix : List ℕ) : (splitMix q mix).sum ≤ q :=
  apportion_sum_le _ _

theorem passE_length (mn : ℕ) (mx : Option ℕ) (t : ℕ) (q : List ℕ) :
    (passE mn mx t q).length = q.length := by
  rw [passE]
  split
  · simp
  · split <;>
      simp [List.length_zipWith, apportion_length, absorbWeights, donorWeights]

theorem iterE_length (mn : ℕ) (mx : Option ℕ) (t : ℕ) :
    ∀ (fuel : ℕ) (q : List ℕ), (iterE mn mx t fuel q).length = q.length := by
  intro fuel
  induction fuel with
  | zero => intro q; rfl
  | succ fuel ih =>
    intro q
    rw [iterE]
    split
    · rfl
    · rw [ih, passE_length]

/-- The enforcer's output never exceeds min(available stock, limit): the
final enforcement step rescales with largest-remainder rounding whenever the
clamped total overshoots. -/
theorem enforce_rows_sum_le (mn : ℕ) (mx : Option ℕ) (stock : ℕ)
    (limit : Option ℕ) (q : List ℕ) :
    (enforce mn mx stock limit q).rows.sum ≤ min stock (limit.getD stock) := by
  rw [enforce]
  simp only
  split
  · exact apportion_sum_le _ _
  · omega

theorem enforce_rows_length (mn : ℕ) (mx : Option ℕ) (stock : ℕ)
    (limit : Option ℕ) (q : List ℕ) :
    (enforce mn mx stock limit q).rows.length = q.length := by
  rw [enforce]
  simp only
  split
  · rw [apportion_length, iterE_length]
  · rw [iterE_length]

/-- The grand total of the detail rows built from a grid equals the sum of
all row sums. -/
theorem detail_finals_sum (grid : List (List ℕ)) :
    ((((lrItems grid).flatMap fun p => (lrItems p.2).map fun v =>
        ({ store := p.1, variant := v.1, allocated_qty := v.2,
           override_qty := none, final_qty := v.2 } : Detail)).map
      Detail.final_qty)).sum = (grid.map (fun row => row.sum)).sum := by
  rw [List.map_flatMap, sum_flatMap]
  have h1 : ∀ p : ℕ × List ℕ,
      ((List.map Detail.final_qty ((lrItems p.2).map fun v =>
        ({ store := p.1, variant := v.1, allocated_qty := v.2,
           override_qty := none, final_qty := v.2 } : Detail)))).sum
        = p.2.sum := by
    intro p
    rw [List.map_map]
    have h2 : (Detail.final_qty ∘ fun v : ℕ × ℕ =>
        ({ store := p.1, variant := v.1, allocated_qty := v.2,
           override_qty := none, final_qty := v.2 } : Detail)) = Prod.snd := rfl
    rw [h2, lrItems_snd]
  have h3 : (lrItems grid).map (fun p =>
      ((List.map Detail.final_qty ((lrItems p.2).map fun v =>
        ({ store := p.1, variant := v.1, allocated_qty := v.2,
           override_qty := none, final_qty := v.2 } : Detail)))).sum)
      = (lrItems grid).map (fun p => p.2.sum) := by
    apply List.map_congr_left
    intro p _
    exact h1 p
  rw [h3]
  have h4 : (lrItems grid).map (fun p : ℕ × List ℕ => p.2.sum)
      = ((lrItems grid).map Prod.snd).map (fun row => row.sum) := by
    rw [List.map_map]; rfl
  rw [h4, lrItems_snd]

/-- The run's grand total of final quantities never exceeds the parent-level
available-stock snapshot. -/
theorem runAllocation_finals_le (cfg : RunConfig) (stores : List Store)
    (variants : List VariantInfo) :
    ((runAllocation cfg stores variants).details.map Detail.final_qty).sum ≤
      (variants.map VariantInfo.stock).sum := by
  rw [runAllocation]
  simp only
  rw [detail_finals_sum]
  have h1 : ∀ r ∈ (enforce cfg.min_per_store cfg.max_per_store
      (variants.map VariantInfo.stock).sum cfg.total_qty_limit
      (distribute cfg.basis cfg.ratios stores
        (variants.map VariantInfo.stock).sum cfg.total_qty_limit)).rows,
      (splitMix r (variants.map VariantInfo.mix)).sum ≤ r := by
    intro r _
    exact splitMix_sum_le _ _
  have h2 : ((assembleGrid (enforce cfg.min_per_store cfg.max_per_store
      (variants.map VariantInfo.stock).sum cfg.total_qty_limit
      (distribute cfg.basis cfg.ratios stores
        (variants.map VariantInfo.stock).sum cfg.total_qty_limit)).rows
      (variants.map VariantInfo.mix)).map (fun row => row.sum)).sum ≤
      (enforce cfg.min_per_store cfg.max_per_store
      (variants.map VariantInfo.stock).sum cfg.total_qty_limit
      (distribute cfg.basis cfg.ratios stores
        (variants.map VariantInfo.stock).sum cfg.total_qty_limit)).rows.sum := by
    rw [assembleGrid, List.map_map]
    have h3 := List.sum_le_sum (l := (enforce cfg.min_per_store cfg.max_per_store
      (variants.map VariantInfo.stock).sum cfg.total_qty_limit
      (distribute cfg.basis cfg.ratios stores
        (variants.map VariantInfo.stock).sum cfg.total_qty_limit)).rows)
      (f := fun r => (splitMix r (variants.map VariantInfo.mix)).sum)
      (g := id) (fun r hr => splitMix_sum_le _ _)
    simpa using h3
  refine le_trans h2 ?_
  refine le_trans (enforce_rows_sum_le _ _ _ _ _) ?_
  exact min_le_left _ _

/-- C8: infeasible minimums never abort a run — the enforcer returns a
best-effort result of the right shape, still capped by the stock snapshot,
with the constraint-infeasible warning flag set, and the full run completes
in DRAFT carrying the flag. -/
theorem C8_infeasible_is_warning :
    (∀ (mn : ℕ) (mx : Option ℕ) (stock : ℕ) (limit : Option ℕ) (q : List ℕ),
      stock < mn * q.length →
      (enforce mn mx stock limit q).infeasible = true ∧
      (enforce mn mx stock limit q).rows.length = q.length ∧
      (enforce mn mx stock limit q).rows.sum ≤ stock) ∧
    (∀ (cfg : RunConfig) (stores : List Store) (variants : List VariantInfo),
      (variants.map VariantInfo.stock).sum < cfg.min_per_store * stores.length →
      (runAllocation cfg stores variants).status = Status.DRAFT ∧
      (runAllocation cfg stores variants).constraint_infeasible = true) := by
  constructor
  · intro mn mx stock limit q h
    refine ⟨?_, enforce_rows_length mn mx stock limit q,
      le_trans (enforce_rows_sum_le mn mx stock limit q) (min_le_left _ _)⟩
    rw [enforce]
    simpa using h
  · intro cfg stores variants h
    constructor
    · rfl
    · rw [runAllocation]
      simp only
      rw [enforce]
      simp only
      rw [distribute_length]
      simpa using h

/-- C8 witness: min_per_store = 5 with 3 stores and only 3 units of stock is
flagged infeasible while the enforcer still returns 3 rows within stock, and
the corresponding run completes in DRAFT with the warning flag. -/
theorem C8_infeasible_is_warning_witness :
    (enforce 5 none 3 none [1, 1, 1]).infeasible = true ∧
    (enforce 5 none 3 none [1, 1, 1]).rows.length = 3 ∧
    (runAllocation ⟨Basis.ratio, fun _ => ⟨1, 1⟩, 5, none, none⟩
      [⟨0, 0, 0, Grade.A⟩, ⟨0, 0, 0, Grade.B⟩, ⟨0, 0, 0, Grade.C⟩]
      [⟨3, 1⟩]).constraint_infeasible = true := by
  have h1 := C8_infeasible_is_warning.1 5 none 3 none [1, 1, 1] (by decide)
  have h2 := C8_infeasible_is_warning.2
    ⟨Basis.ratio, fun _ => ⟨1, 1⟩, 5, none, none⟩
    [⟨0, 0, 0, Grade.A⟩, ⟨0, 0, 0, Grade.B⟩, ⟨0, 0, 0, Grade.C⟩]
    [⟨3, 1⟩] (by decide)
  exact ⟨h1.1, h1.2.1, h2.2⟩

/-- Mapping after a filter never sums to more than mapping the whole list. -/
theorem sum_filter_map_le {α : Type} (l : List α) (p : α → Bool) (f : α → ℕ) :
    ((l.filter p).map f).sum ≤ (l.map f).sum := by
  induction l with
  | nil => simp
  | cons a t ih =>
    by_cases h : p a
    · simp only [List.filter_cons, h, if_true, List.map_cons, List.sum_cons]
      omega
    · simp only [List.filter_cons, h, Bool.false_eq_true, if_false,
        List.map_cons, List.sum_cons]
      omega

/-- C1 counterexample, two parts.  Per-variant, the invariant fails even for
a freshly computed run with no override: with one store and two variants of
stock 10 and 0 (equal mix weights), the Distributor hands the store the
pooled 10 units and the GridAssembler splits them 5/5 across the variants by
mix with no per-variant stock check, so the zero-stock variant receives
5 > 0.  And after applyOverrides even the aggregate bound fails: a run over
one store and one variant with a stock snapshot of 10 allocates 10, then an
override of 11 (its only preconditions are status and non-negativity) makes
the sum of final quantities 11 > 10. -/
theorem C1_invariant_counterexample :
    (variantFinalSum (runAllocation ⟨Basis.ratio, fun _ => ⟨1, 1⟩, 0, none, none⟩
        [⟨0, 0, 0, Grade.A⟩] [⟨10, 1⟩, ⟨0, 1⟩]) 1 = 5 ∧
      (([⟨10, 1⟩, ⟨0, 1⟩] : List VariantInfo).map VariantInfo.stock).getD 1 99 = 0 ∧
      ¬ (5 ≤ 0)) ∧
    (((applyOverrides (runAllocation ⟨Basis.ratio, fun _ => ⟨1, 1⟩, 0, none, none⟩
        [⟨0, 0, 0, Grade.A⟩] [⟨10, 1⟩]) [(0, 11)]).map
      (fun st => (st.details.map Detail.final_qty).sum)) = some 11 ∧
      (([⟨10, 1⟩] : List VariantInfo).map VariantInfo.stock).sum = 10 ∧
      ¬ (11 ≤ 10)) := by decide

/-- C1 amended: every final_qty is non-negative at every stage, and after the
Distributor, after the ConstraintEnforcer and after GridAssembler (hence for
the completed run) the parent-level store-wise total — and with it every
variant's store-wise sum of final quantities — is at most the total
available-stock snapshot, the sum of the per-variant snapshots; the
per-variant bound by each variant's own snapshot does not hold, and
applyOverrides preserves non-negativity but is not bounded by any
snapshot. -/
theorem C1_stock_cap_amended (cfg : RunConfig) (stores : List Store)
    (variants : List VariantInfo) :
    (distribute cfg.basis cfg.ratios stores (variants.map VariantInfo.stock).sum
        cfg.total_qty_limit).sum ≤ (variants.map VariantInfo.stock).sum ∧
    (enforce cfg.min_per_store cfg.max_per_store
        (variants.map VariantInfo.stock).sum cfg.total_qty_limit
        (distribute cfg.basis cfg.ratios stores
          (variants.map VariantInfo.stock).sum cfg.total_qty_limit)).rows.sum ≤
      (variants.map VariantInfo.stock).sum ∧
    ((runAllocation cfg stores variants).details.map Detail.final_qty).sum ≤
      (variants.map VariantInfo.stock).sum ∧
    (runAllocation cfg stores variants).total_qty ≤
      (variants.map VariantInfo.stock).sum ∧
    (∀ v, variantFinalSum (runAllocation cfg stores variants) v ≤
      (variants.map VariantInfo.stock).sum) ∧
    (∀ d ∈ (runAllocation cfg stores variants).details, 0 ≤ d.final_qty) ∧
    (∀ (st st2 : HeaderState) (ovs : List (ℕ × ℕ)),
      applyOverrides st ovs = some st2 → ∀ d ∈ st2.details, 0 ≤ d.final_qty) := by
  refine ⟨?_, ?_, runAllocation_finals_le cfg stores variants, ?_, ?_, ?_, ?_⟩
  · rw [distribute]
    exact le_trans (apportion_sum_le _ _) (min_le_left _ _)
  · exact le_trans (enforce_rows_sum_le _ _ _ _ _) (min_le_left _ _)
  · have heq : (runAllocation cfg stores variants).total_qty =
        ((runAllocation cfg stores variants).details.map Detail.final_qty).sum := by
      rw [runAllocation]
    rw [heq]
    exact runAllocation_finals_le cfg stores variants
  · intro v
    exact le_trans (sum_filter_map_le _ _ _)
      (runAllocation_finals_le cfg stores variants)
  · intro d _
    exact Nat.zero_le _
  · intro st st2 ovs hov d _
    exact Nat.zero_le _

/-- C1 witness: the amended bounds hold on a concrete two-store run with an
override applied. -/
theorem C1_stock_cap_amended_witness :
    ((runAllocation ⟨Basis.ratio, fun _ => ⟨1, 1⟩, 0, none, none⟩
      [⟨0, 0, 0, Grade.A⟩, ⟨0, 0, 0, Grade.B⟩]
      [⟨6, 1⟩, ⟨4, 1⟩]).details.map Detail.final_qty).sum ≤ 10 ∧
    variantFinalSum (runAllocation ⟨Basis.ratio, fun _ => ⟨1, 1⟩, 0, none, none⟩
      [⟨0, 0, 0, Grade.A⟩, ⟨0, 0, 0, Grade.B⟩] [⟨6, 1⟩, ⟨4, 1⟩]) 0 ≤ 10 ∧
    (∀ d ∈ ((⟨Status.DRAFT, 3, false, [⟨0, 0, 5, some 3, 3⟩]⟩ :
        HeaderState)).details, 0 ≤ d.final_qty) := by
  have h := C1_stock_cap_amended ⟨Basis.ratio, fun _ => ⟨1, 1⟩, 0, none, none⟩
    [⟨0, 0, 0, Grade.A⟩, ⟨0, 0, 0, Grade.B⟩] [⟨6, 1⟩, ⟨4, 1⟩]
  refine ⟨by simpa using h.2.2.1, by simpa using h.2.2.2.2.1 0, ?_⟩
  exact h.2.2.2.2.2.2 ⟨Status.DRAFT, 5, false, [⟨0, 0, 5, none, 5⟩]⟩
    ⟨Status.DRAFT, 3, false, [⟨0, 0, 5, some 3, 3⟩]⟩ [(0, 3)] (by decide)

/-! ## Convergence of the ConstraintEnforcer's water-filling passes -/

/-- Quantity is below the nullable cap. -/
def leMax (mx : Option ℕ) (x : ℕ) : Prop := ∀ m, mx = some m → x ≤ m

/-- Every entry lies within the constraint band. -/
def okB (mn : ℕ) (mx : Option ℕ) (l : List ℕ) : Prop :=
  ∀ x ∈ l, mn ≤ x ∧ leMax mx x

theorem clampQ_ge (mn : ℕ) (mx : Option ℕ) (x : ℕ) : mn ≤ clampQ mn mx x := by
  cases mx <;> simp [clampQ]

theorem clampQ_leMax (mn : ℕ) (mx : Option ℕ) (x : ℕ)
    (hmx : ∀ m, mx = some m → mn ≤ m) : leMax mx (clampQ mn mx x) := by
  intro m hm
  subst hm
  have := hmx m rfl
  simp [clampQ]
  omega

theorem clampQ_le_self (mn : ℕ) (mx : Option ℕ) (x : ℕ) (h : mn ≤ x) :
    clampQ mn mx x ≤ x := by
  cases mx <;> simp [clampQ] <;> omega

theorem clampQ_eq_self (mn : ℕ) (mx : Option ℕ) (x : ℕ) (h1 : mn ≤ x)
    (h2 : leMax mx x) : clampQ mn mx x = x := by
  cases mx with
  | none => simp [clampQ]; omega
  | some m =>
    have := h2 m rfl
    simp [clampQ]
    omega

theorem map_clampQ_id (mn : ℕ) (mx : Option ℕ) (l : List ℕ) (h : okB mn mx l) :
    l.map (clampQ mn mx) = l := by
  conv_rhs => rw [← List.map_id l]
  apply List.map_congr_left
  intro x hx
  rcases h x hx with ⟨h1, h2⟩
  exact clampQ_eq_self mn mx x h1 h2

theorem okB_map_clampQ (mn : ℕ) (mx : Option ℕ) (l : List ℕ)
    (hmx : ∀ m, mx = some m → mn ≤ m) : okB mn mx (l.map (clampQ mn mx)) := by
  intro x hx
  rcases List.mem_map.1 hx with ⟨y, _, rfl⟩
  exact ⟨clampQ_ge mn mx y, clampQ_leMax mn mx y hmx⟩

/-- Pointwise monotone predicates transport counts across equal-length
lists. -/
theorem countP_le_pointwise (p : ℕ → Bool) :
    ∀ (l l2 : List ℕ) (hlen : l.length = l2.length),
      (∀ i (h : i < l.length), p l[i] = true →
        p ((getElem l2 i (by omega))) = true) →
      l.countP p ≤ l2.countP p := by
  intro l
  induction l with
  | nil => intro l2 _ _; simp
  | cons a tl ih =>
    intro l2 hlen hpt
    match l2 with
    | [] => simp at hlen
    | b :: tl2 =>
      have h0 := hpt 0 (by simp)
      have htl := ih tl2 (by simpa using hlen)
        (fun i hi hp => by
          have := hpt (i + 1) (by simpa using Nat.succ_lt_succ hi)
          simpa using this (by simpa using hp))
      rw [List.countP_cons, List.countP_cons]
      by_cases hpa : p a = true
      · have hpb : p b = true := by simpa using h0 (by simpa using hpa)
        simp [hpa, hpb]
        omega
      · have hpa2 : p a = false := by simpa using hpa
        simp only [hpa2]
        cases hpb : p b <;> simp <;> omega

/-- Strict version: if additionally one position flips from false to true,
the count strictly increases. -/
theorem countP_lt_pointwise (p : ℕ → Bool) :
    ∀ (l l2 : List ℕ) (hlen : l.length = l2.length),
      (∀ i (h : i < l.length), p l[i] = true →
        p ((getElem l2 i (by omega))) = true) →
      ∀ (k : ℕ) (hk : k < l.length), p l[k] = false →
        p ((getElem l2 k (by omega))) = true →
      l.countP p < l2.countP p := by
  intro l
  induction l with
  | nil => intro l2 _ _ k hk; simp at hk
  | cons a tl ih =>
    intro l2 hlen hpt k hk hfalse htrue
    match l2 with
    | [] => simp at hlen
    | b :: tl2 =>
      have htlle := countP_le_pointwise p tl tl2 (by simpa using hlen)
        (fun i hi hp => by
          have := hpt (i + 1) (by simpa using Nat.succ_lt_succ hi)
          simpa using this (by simpa using hp))
      rw [List.countP_cons, List.countP_cons]
      match k with
      | 0 =>
        have hpa : p a = false := by simpa using hfalse
        have hpb : p b = true := by simpa using htrue
        simp [hpa, hpb]
        omega
      | k + 1 =>
        have htl := ih tl2 (by simpa using hlen)
          (fun i hi hp => by
            have := hpt (i + 1) (by simpa using Nat.succ_lt_succ hi)
            simpa using this (by simpa using hp))
          k (by simpa using Nat.lt_of_succ_lt_succ hk)
          (by simpa using hfalse) (by simpa using htrue)
        have h0 := hpt 0 (by simp)
        by_cases hpa : p a = true
        · have hpb : p b = true := by simpa using h0 (by simpa using hpa)
          simp [hpa, hpb]
          omega
        · have hpa2 : p a = false := by simpa using hpa
          simp only [hpa2]
          cases hpb : p b <;> simp <;> omega

theorem sum_zipWith_add :
    ∀ (a d : List ℕ), a.length = d.length →
      (List.zipWith (fun x y => x + y) a d).sum = a.sum + d.sum := by
  intro a
  induction a with
  | nil => intro d h; match d with | [] => simp
  | cons x tl ih =>
    intro d h
    match d with
    | y :: tl2 =>
      have := ih tl2 (by simpa using h)
      simp [this]
      ring

theorem sum_zipWith_sub_le :
    ∀ (a d : List ℕ),
      (List.zipWith (fun x y => x - y) a d).sum ≤ a.sum := by
  intro a
  induction a with
  | nil => intro d; simp
  | cons x tl ih =>
    intro d
    match d with
    | [] => simp
    | y :: tl2 =>
      have := ih tl2
      simp only [List.zipWith_cons_cons, List.sum_cons]
      omega

theorem sum_zipWith_sub_ge :
    ∀ (a d : List ℕ), a.length = d.length →
      a.sum - d.sum ≤ (List.zipWith (fun x y => x - y) a d).sum := by
  intro a
  induction a with
  | nil => intro d h; match d with | [] => simp
  | cons x tl ih =>
    intro d h
    match d with
    | y :: tl2 =>
      have := ih tl2 (by simpa using h)
      simp only [List.zipWith_cons_cons, List.sum_cons]
      omega

theorem sum_le_sum_pointwise :
    ∀ (a d : List ℕ) (hlen : a.length = d.length),
      (∀ i (h : i < a.length), (getElem d i (by omega)) ≤ a[i]) →
      d.sum ≤ a.sum := by
  intro a
  induction a with
  | nil => intro d h _; match d with | [] => simp
  | cons x tl ih =>
    intro d h hle
    match d with
    | y :: tl2 =>
      have h0 := hle 0 (by simp)
      simp only [List.getElem_cons_zero] at h0
      have htl := ih tl2 (by simpa using h)
        (fun i hi => by
          have := hle (i + 1) (by simpa using Nat.succ_lt_succ hi)
          simpa using this)
      simp only [List.sum_cons]
      omega

theorem sum_zipWith_sub_eq :
    ∀ (a d : List ℕ) (hlen : a.length = d.length),
      (∀ i (h : i < a.length), (getElem d i (by omega)) ≤ a[i]) →
      (List.zipWith (fun x y => x - y) a d).sum = a.sum - d.sum := by
  intro a
  induction a with
  | nil => intro d h _; match d with | [] => simp
  | cons x tl ih =>
    intro d h hle
    match d with
    | y :: tl2 =>
      have h0 := hle 0 (by simp)
      simp only [List.getElem_cons_zero] at h0
      have htl := ih tl2 (by simpa using h)
        (fun i hi => by
          have := hle (i + 1) (by simpa using Nat.succ_lt_succ hi)
          simpa using this)
      have hd : tl2.sum ≤ tl.sum := by
        apply sum_le_sum_pointwise tl tl2 (by simpa using h)
        intro i hi
        have := hle (i + 1) (by simpa using Nat.succ_lt_succ hi)
        simpa using this
      simp only [List.zipWith_cons_cons, List.sum_cons, htl]
      omega

theorem sum_map_le_self (f : ℕ → ℕ) (l : List ℕ) (h : ∀ x ∈ l, f x ≤ x) :
    (l.map f).sum ≤ l.sum := by
  induction l with
  | nil => simp
  | cons a tl ih =>
    have := h a (by simp)
    have := ih (fun x hx => h x (by simp [hx]))
    simp only [List.map_cons, List.sum_cons]
    omega

theorem sum_le_sum_map (f : ℕ → ℕ) (l : List ℕ) (h : ∀ x ∈ l, x ≤ f x) :
    l.sum ≤ (l.map f).sum := by
  induction l with
  | nil => simp
  | cons a tl ih =>
    have := h a (by simp)
    have := ih (fun x hx => h x (by simp [hx]))
    simp only [List.map_cons, List.sum_cons]
    omega

/-- Helper: summing entries kept by a predicate. -/
theorem sum_map_keepP (p : ℕ → Bool) (c : List ℕ) :
    (c.map (fun x => if p x then x else 0)).sum = (c.filter p).sum := by
  induction c with
  | nil => simp
  | cons a tl ih =>
    cases hp : p a <;> simp [hp, ih, List.filter_cons]

theorem absorbWeights_length (mx : Option ℕ) (c : List ℕ) :
    (absorbWeights mx c).length = c.length := by
  simp [absorbWeights]

theorem donorWeights_length (mn : ℕ) (c : List ℕ) :
    (donorWeights mn c).length = c.length := by
  simp [donorWeights]

theorem absorbWeights_getElem (mx : Option ℕ) (cl : List ℕ) (i : ℕ)
    (h : i < cl.length) :
    (getElem (absorbWeights mx cl) i (by simpa [absorbWeights_length] using h)) =
      if canAbsorb mx (cl[i])
      then (if (cl.filter (fun y => canAbsorb mx y)).sum = 0 then 1 else cl[i])
      else 0 := by
  simp [absorbWeights]

theorem donorWeights_getElem (mn : ℕ) (cl : List ℕ) (i : ℕ) (h : i < cl.length) :
    (getElem (donorWeights mn cl) i (by simpa [donorWeights_length] using h)) =
      if mn < cl[i] then cl[i] else 0 := by
  simp [donorWeights]

theorem absorbWeights_sum_ne (mx : Option ℕ) (c : List ℕ)
    (hex : ∃ x ∈ c, canAbsorb mx x = true) : (absorbWeights mx c).sum ≠ 0 := by
  rcases hex with ⟨x, hx, hcx⟩
  rw [absorbWeights]
  by_cases hs : (c.filter (fun y => canAbsorb mx y)).sum = 0
  · have h1 : (c.map (fun y => if canAbsorb mx y
        then (if (c.filter (fun y => canAbsorb mx y)).sum = 0 then 1 else y)
        else 0)).sum
        = (c.map (fun y => if canAbsorb mx y then 1 else 0)).sum := by
      apply congrArg
      apply List.map_congr_left
      intro y _
      simp [hs]
    rw [h1]
    intro h0
    rw [List.sum_eq_zero_iff] at h0
    have := h0 (if canAbsorb mx x then 1 else 0) (List.mem_map_of_mem _ hx)
    rw [hcx] at this
    simp at this
  · have h1 : (c.map (fun y => if canAbsorb mx y
        then (if (c.filter (fun y => canAbsorb mx y)).sum = 0 then 1 else y)
        else 0)).sum
        = (c.map (fun y => if canAbsorb mx y then y else 0)).sum := by
      apply congrArg
      apply List.map_congr_left
      intro y _
      simp [hs]
    rw [h1, sum_map_keepP]
    exact hs

theorem donorWeights_sum_ne (mn : ℕ) (c : List ℕ)
    (hex : ∃ x ∈ c, mn < x) : (donorWeights mn c).sum ≠ 0 := by
  rcases hex with ⟨x, hx, hmx⟩
  rw [donorWeights]
  intro h0
  rw [List.sum_eq_zero_iff] at h0
  have := h0 (if mn < x then x else 0) (List.mem_map_of_mem _ hx)
  rw [if_pos hmx] at this
  omega

theorem passE_eq_clamp (mn : ℕ) (mx : Option ℕ) (t : ℕ) (q : List ℕ)
    (h : (q.map (clampQ mn mx)).sum = t) :
    passE mn mx t q = q.map (clampQ mn mx) := by
  simp only [passE]
  rw [if_pos h]

theorem passE_eq_add (mn : ℕ) (mx : Option ℕ) (t : ℕ) (q : List ℕ)
    (h : (q.map (clampQ mn mx)).sum < t) :
    passE mn mx t q = List.zipWith (fun a b => a + b) (q.map (clampQ mn mx))
      (apportion (t - (q.map (clampQ mn mx)).sum)
        (absorbWeights mx (q.map (clampQ mn mx)))) := by
  simp only [passE]
  rw [if_neg (by omega), if_pos h]

theorem passE_eq_sub (mn : ℕ) (mx : Option ℕ) (t : ℕ) (q : List ℕ)
    (h : t < (q.map (clampQ mn mx)).sum) :
    passE mn mx t q = List.zipWith (fun a b => a - b) (q.map (clampQ mn mx))
      (apportion ((q.map (clampQ mn mx)).sum - t)
        (donorWeights mn (q.map (clampQ mn mx)))) := by
  simp only [passE]
  rw [if_neg (by omega), if_neg (by omega)]

/-- Lists differing at one position are different. -/
theorem ne_of_getElem_ne {l l2 : List ℕ} (i : ℕ) (hi : i < l.length)
    (hi2 : i < l2.length) (h : l[i] ≠ l2[i]) : l ≠ l2 := by
  intro heq
  subst heq
  exact h rfl

theorem clampQ_of_gt (mn m x : ℕ) (h1 : mn ≤ m) (h2 : m < x) :
    clampQ mn (some m) x = m := by
  simp [clampQ]
  omega

/-- In the shortfall phase every pass adds units to stores below their cap:
quantities only grow, stores at the cap stay pinned, and within the
iteration cap the total reaches `t` with every store inside the band. -/
theorem iter_add (mn : ℕ) (mx : Option ℕ) (t : ℕ)
    (hmx : ∀ m, mx = some m → mn ≤ m) :
    ∀ (fuel : ℕ) (q : List ℕ)
      (hS : (q.map (clampQ mn mx)).sum ≤ t)
      (hfeas : ∀ m, mx = some m → t ≤ m * q.length)
      (hnil : q = [] → t = 0)
      (hfuel : q.length + 2 ≤ fuel +
        (q.map (clampQ mn mx)).countP (fun x => ! canAbsorb mx x)),
      (iterE mn mx t fuel q).sum = t ∧ okB mn mx (iterE mn mx t fuel q) := by
  intro fuel
  induction fuel with
  | zero =>
    intro q hS hfeas hnil hfuel
    exfalso
    have hcnt : (q.map (clampQ mn mx)).countP (fun x => ! canAbsorb mx x) ≤
        (q.map (clampQ mn mx)).length := List.countP_le_length _
    rw [List.length_map] at hcnt
    omega
  | succ fuel ih =>
    intro q hS hfeas hnil hfuel
    have hclen : (q.map (clampQ mn mx)).length = q.length := List.length_map _ _
    have hcok : okB mn mx (q.map (clampQ mn mx)) := okB_map_clampQ mn mx q hmx
    have hcnt_le : (q.map (clampQ mn mx)).countP (fun x => ! canAbsorb mx x) ≤
        q.length := by
      have := List.countP_le_length (p := fun x => ! canAbsorb mx x)
        (l := q.map (clampQ mn mx))
      omega
    rw [iterE]
    by_cases hSt : (q.map (clampQ mn mx)).sum = t
    · have hpass := passE_eq_clamp mn mx t q hSt
      by_cases hqc : passE mn mx t q = q
      · rw [if_pos hqc]
        have hqe : q = q.map (clampQ mn mx) := by rw [← hpass, hqc]
        constructor
        · have hsq : q.sum = (q.map (clampQ mn mx)).sum := congrArg List.sum hqe
          omega
        · intro x hx
          apply hcok
          rw [← hqe]
          exact hx
      · rw [if_neg hqc, hpass]
        obtain ⟨fuel2, rfl⟩ : ∃ f2, fuel = f2 + 1 := ⟨fuel - 1, by omega⟩
        rw [iterE]
        have hidem := map_clampQ_id mn mx (q.map (clampQ mn mx)) hcok
        have hpass2 := passE_eq_clamp mn mx t (q.map (clampQ mn mx))
          (by rw [hidem]; exact hSt)
        rw [if_pos (by rw [hpass2, hidem])]
        exact ⟨hSt, hcok⟩
    · have hSlt : (q.map (clampQ mn mx)).sum < t := lt_of_le_of_ne hS hSt
      have hqne : q ≠ [] := by
        intro hq
        subst hq
        have := hnil rfl
        simp at hSlt
        omega
      have hex : ∃ x ∈ q.map (clampQ mn mx), canAbsorb mx x = true := by
        by_contra hno
        push_neg at hno
        cases mx with
        | none =>
          have hne2 : q.map (clampQ mn none) ≠ [] := by
            simpa using hqne
          rcases List.exists_mem_of_ne_nil _ hne2 with ⟨x, hx⟩
          exact absurd rfl (hno x hx)
        | some m =>
          have hall : ∀ x ∈ q.map (clampQ mn (some m)), x = m := by
            intro x hx
            have h1 := (hcok x hx).2 m rfl
            have h2 := hno x hx
            simp [canAbsorb] at h2
            omega
          have hsum := List.sum_eq_card_nsmul _ m hall
          rw [List.length_map, smul_eq_mul] at hsum
          have hf := hfeas m rfl
          rw [Nat.mul_comm] at hf
          omega
      have hWne := absorbWeights_sum_ne mx _ hex
      have hpass := passE_eq_add mn mx t q hSlt
      set cl := q.map (clampQ mn mx) with hcldef
      set d := apportion (t - cl.sum) (absorbWeights mx cl) with hddef
      set q2 := List.zipWith (fun a b => a + b) cl d with hq2def
      have hdlen : d.length = cl.length := by
        rw [hddef, apportion_length, absorbWeights_length]
      have hq2len : q2.length = q.length := by
        rw [hq2def, List.length_zipWith]
        omega
      have hdsum : d.sum = t - cl.sum := by
        rw [hddef]
        exact apportion_sum _ _ hWne
      have hq2sum : q2.sum = t := by
        rw [hq2def, sum_zipWith_add cl d hdlen.symm]
        omega
      have hq2get : ∀ i (h : i < q.length), (getElem q2 i (by omega)) =
          (getElem cl i (by omega)) + (getElem d i (by omega)) := by
        intro i h
        exact List.getElem_zipWith
      have hd0 : ∀ i (h : i < q.length), canAbsorb mx ((getElem cl i (by omega))) = false →
          (getElem d i (by omega)) = 0 := by
        intro i h hfalse
        have hw : (getElem (absorbWeights mx cl) i (by rw [absorbWeights_length]; omega)) = 0 := by
          rw [absorbWeights_getElem mx cl i (by omega), hfalse]
          simp
        exact apportion_zero_weight _ _ i (by rw [absorbWeights_length]; omega) hw
      have hq2mn : ∀ i (h : i < q.length), mn ≤ (getElem q2 i (by omega)) := by
        intro i h
        have h1 := (hcok _ (List.getElem_mem (show i < cl.length by omega))).1
        have h2 := hq2get i h
        omega
      by_cases hov : ∃ m, mx = some m ∧ ∃ i, ∃ h : i < q.length, m < (getElem q2 i (by omega))
      · rcases hov with ⟨m, hm, i, hi, hover⟩
        subst hm
        have hmnm : mn ≤ m := hmx m rfl
        have hlt : (getElem cl i (by omega)) < m := by
          by_contra hfalse
          have hf2 : canAbsorb (some m) ((getElem cl i (by omega))) = false := by
            simp [canAbsorb]
            omega
          have hdz := hd0 i hi hf2
          have hcle : (getElem cl i (by omega)) ≤ m :=
            (hcok _ (List.getElem_mem (show i < cl.length by omega))).2 m rfl
          have hg := hq2get i hi
          omega
        have hq2neq : q2 ≠ q := by
          apply ne_of_getElem_ne i (by omega) hi
          by_cases hqi : (getElem q i hi) ≤ m
          · omega
          · exfalso
            have hcli : (getElem cl i (by omega)) = m := by
              have hmap : (getElem cl i (by omega)) = clampQ mn (some m) ((getElem q i hi)) :=
                List.getElem_map _
              rw [hmap]
              simp [clampQ]
              omega
            omega
        have hpt : ∀ j (hj : j < cl.length),
            (! canAbsorb (some m) ((getElem cl j hj))) = true →
            (! canAbsorb (some m)
              ((getElem (q2.map (clampQ mn (some m))) j (by rw [List.length_map]; omega)))) = true := by
          intro j hj hpj
          have hj2 : j < q.length := by omega
          have hcj : (getElem cl j (by omega)) = m := by
            have h1 := (hcok _ (List.getElem_mem (show j < cl.length by omega))).2 m rfl
            have h2 : ¬ ((getElem cl j (by omega)) < m) := by
              simpa [canAbsorb] using hpj
            omega
          have hdj := hd0 j hj2 (by rw [hcj]; simp [canAbsorb])
          have hq2j : (getElem q2 j (by omega)) = m := by
            rw [hq2get j hj2, hcj, hdj]
            omega
          have hcl2 : (getElem (q2.map (clampQ mn (some m))) j (by rw [List.length_map]; omega))
              = m := by
            rw [List.getElem_map, hq2j]
            simp [clampQ]
            omega
          rw [hcl2]
          simp [canAbsorb]
        have hfalse2 : (! canAbsorb (some m) ((getElem cl i (show i < cl.length by omega))))
            = false := by
          simp [canAbsorb]
          omega
        have htrue2 : (! canAbsorb (some m)
            ((getElem (q2.map (clampQ mn (some m))) i (by rw [List.length_map]; omega))))
            = true := by
          have hcl2 : (getElem (q2.map (clampQ mn (some m))) i (by rw [List.length_map]; omega))
              = m := by
            rw [List.getElem_map]
            exact clampQ_of_gt mn m _ hmnm hover
          rw [hcl2]
          simp [canAbsorb]
        have hlen2 : cl.length = (q2.map (clampQ mn (some m))).length := by
          simp only [List.length_map]
          rw [hclen, hq2len]
        have hstrict := countP_lt_pointwise (fun x => ! canAbsorb (some m) x)
          cl (q2.map (clampQ mn (some m))) hlen2
          hpt i (by rw [hclen]; exact hi) hfalse2 htrue2
        rw [if_neg (by rw [hpass]; exact hq2neq), hpass]
        refine ih q2 ?_ ?_ ?_ ?_
        · have hle : (q2.map (clampQ mn (some m))).sum ≤ q2.sum := by
            apply sum_map_le_self
            intro x hx
            rcases List.mem_iff_getElem.1 hx with ⟨j, hjlt, hj⟩
            have hj2 : j < q.length := by omega
            have hmnx := hq2mn j hj2
            rw [← hj]
            exact clampQ_le_self mn (some m) _ hmnx
          omega
        · intro m2 hm2
          rw [hq2len]
          exact hfeas m2 hm2
        · intro hq2nil
          apply hnil
          have : q2.length = 0 := by rw [hq2nil]; rfl
          rw [hq2len] at this
          exact List.length_eq_zero.1 this
        · rw [hq2len]
          omega
      · push_neg at hov
        have hq2ok : okB mn mx q2 := by
          intro x hx
          rcases List.mem_iff_getElem.1 hx with ⟨j, hjlt, hj⟩
          have hj2 : j < q.length := by omega
          constructor
          · rw [← hj]
            exact hq2mn j hj2
          · intro m hm
            rw [← hj]
            exact hov m hm j hj2
        have hclamp2 : q2.map (clampQ mn mx) = q2 := map_clampQ_id mn mx q2 hq2ok
        by_cases hq2q : q2 = q
        · rw [if_pos (by rw [hpass, hq2q])]
          rw [← hq2q]
          exact ⟨hq2sum, hq2ok⟩
        · rw [if_neg (by rw [hpass]; exact hq2q), hpass]
          obtain ⟨fuel2, rfl⟩ : ∃ f2, fuel = f2 + 1 := ⟨fuel - 1, by omega⟩
          rw [iterE]
          have hpass3 := passE_eq_clamp mn mx t q2 (by rw [hclamp2, hq2sum])
          rw [if_pos (by rw [hpass3, hclamp2])]
          exact ⟨hq2sum, hq2ok⟩

theorem clampQ_ge_self (mn : ℕ) (mx : Option ℕ) (x : ℕ) (h : leMax mx x) :
    x ≤ clampQ mn mx x := by
  cases mx with
  | none => simp [clampQ]
  | some m =>
    have := h m rfl
    simp [clampQ]
    omega

theorem clampQ_self_mn (mn : ℕ) (mx : Option ℕ)
    (hmx : ∀ m, mx = some m → mn ≤ m) : clampQ mn mx mn = mn :=
  clampQ_eq_self mn mx mn (le_refl mn) (fun m hm => hmx m hm)

/-- In the surplus phase every pass removes units from stores above the
floor: quantities only shrink, stores at the floor stay pinned, and within
the iteration cap the total reaches `t` with every store inside the band. -/
theorem iter_sub (mn : ℕ) (mx : Option ℕ) (t : ℕ)
    (hmx : ∀ m, mx = some m → mn ≤ m) :
    ∀ (fuel : ℕ) (q : List ℕ)
      (hS : t ≤ (q.map (clampQ mn mx)).sum)
      (hfeas : mn * q.length ≤ t)
      (hfuel : q.length + 2 ≤ fuel +
        (q.map (clampQ mn mx)).countP (fun x => decide (x ≤ mn))),
      (iterE mn mx t fuel q).sum = t ∧ okB mn mx (iterE mn mx t fuel q) := by
  intro fuel
  induction fuel with
  | zero =>
    intro q hS hfeas hfuel
    exfalso
    have hcnt : (q.map (clampQ mn mx)).countP (fun x => decide (x ≤ mn)) ≤
        (q.map (clampQ mn mx)).length := List.countP_le_length _
    rw [List.length_map] at hcnt
    omega
  | succ fuel ih =>
    intro q hS hfeas hfuel
    have hclen : (q.map (clampQ mn mx)).length = q.length := List.length_map _ _
    have hcok : okB mn mx (q.map (clampQ mn mx)) := okB_map_clampQ mn mx q hmx
    have hcnt_le : (q.map (clampQ mn mx)).countP (fun x => decide (x ≤ mn)) ≤
        q.length := by
      have := List.countP_le_length (p := fun x => decide (x ≤ mn))
        (l := q.map (clampQ mn mx))
      omega
    rw [iterE]
    by_cases hSt : (q.map (clampQ mn mx)).sum = t
    · have hpass := passE_eq_clamp mn mx t q hSt
      by_cases hqc : passE mn mx t q = q
      · rw [if_pos hqc]
        have hqe : q = q.map (clampQ mn mx) := by rw [← hpass, hqc]
        constructor
        · have hsq : q.sum = (q.map (clampQ mn mx)).sum := congrArg List.sum hqe
          omega
        · intro x hx
          apply hcok
          rw [← hqe]
          exact hx
      · rw [if_neg hqc, hpass]
        obtain ⟨fuel2, rfl⟩ : ∃ f2, fuel = f2 + 1 := ⟨fuel - 1, by omega⟩
        rw [iterE]
        have hidem := map_clampQ_id mn mx (q.map (clampQ mn mx)) hcok
        have hpass2 := passE_eq_clamp mn mx t (q.map (clampQ mn mx))
          (by rw [hidem]; exact hSt)
        rw [if_pos (by rw [hpass2, hidem])]
        exact ⟨hSt, hcok⟩
    · have hSgt : t < (q.map (clampQ mn mx)).sum := lt_of_le_of_ne hS (fun h => hSt h.symm)
      have hex : ∃ x ∈ q.map (clampQ mn mx), mn < x := by
        by_contra hno
        push_neg at hno
        have hall : ∀ x ∈ q.map (clampQ mn mx), x = mn := by
          intro x hx
          have h1 := (hcok x hx).1
          have h2 := hno x hx
          omega
        have hsum := List.sum_eq_card_nsmul _ mn hall
        rw [List.length_map, smul_eq_mul] at hsum
        rw [Nat.mul_comm] at hfeas
        omega
      have hWne := donorWeights_sum_ne mn _ hex
      have hpass := passE_eq_sub mn mx t q hSgt
      set cl := q.map (clampQ mn mx) with hcldef
      set d := apportion (cl.sum - t) (donorWeights mn cl) with hddef
      set q2 := List.zipWith (fun a b => a - b) cl d with hq2def
      have hdlen : d.length = cl.length := by
        rw [hddef, apportion_length, donorWeights_length]
      have hq2len : q2.length = q.length := by
        rw [hq2def, List.length_zipWith]
        omega
      have hdsum : d.sum = cl.sum - t := by
        rw [hddef]
        exact apportion_sum _ _ hWne
      have hq2get : ∀ i (h : i < q.length), (getElem q2 i (by omega)) =
          (getElem cl i (by omega)) - (getElem d i (by omega)) := by
        intro i h
        exact List.getElem_zipWith
      have hd0 : ∀ i (h : i < q.length), ¬ (mn < (getElem cl i (by omega))) →
          (getElem d i (by omega)) = 0 := by
        intro i h hfalse
        have hw : (getElem (donorWeights mn cl) i (by rw [donorWeights_length]; omega)) = 0 := by
          rw [donorWeights_getElem mn cl i (by omega), if_neg hfalse]
        exact apportion_zero_weight _ _ i (by rw [donorWeights_length]; omega) hw
      have hq2le : ∀ i (h : i < q.length), (getElem q2 i (by omega)) ≤ (getElem cl i (by omega)) := by
        intro i h
        rw [hq2get i h]
        omega
      have hq2leMax : ∀ i (h : i < q.length), leMax mx ((getElem q2 i (by omega))) := by
        intro i h m hm
        have h1 := (hcok _ (List.getElem_mem (show i < cl.length by omega))).2 m hm
        have h2 := hq2le i h
        omega
      have hq2memleMax : ∀ x ∈ q2, leMax mx x := by
        intro x hx
        rcases List.mem_iff_getElem.1 hx with ⟨j, hjlt, hj⟩
        rw [← hj]
        exact hq2leMax j (by omega)
      have hS2 : t ≤ (q2.map (clampQ mn mx)).sum := by
        have hge : q2.sum ≤ (q2.map (clampQ mn mx)).sum := by
          apply sum_le_sum_map
          intro x hx
          exact clampQ_ge_self mn mx x (hq2memleMax x hx)
        have hq2ge : cl.sum - d.sum ≤ q2.sum := by
          rw [hq2def]
          exact sum_zipWith_sub_ge cl d hdlen.symm
        omega
      by_cases hov : ∃ i, ∃ h : i < q.length,
          mn < (getElem cl i (by omega)) ∧ clampQ mn mx ((getElem q2 i (by omega))) ≤ mn
      · rcases hov with ⟨i, hi, hcli, hclq2⟩
        have hq2neq : q2 ≠ q := by
          apply ne_of_getElem_ne i (by omega) hi
          intro heq
          have h1 : (getElem cl i (by omega)) = clampQ mn mx ((getElem q i hi)) := List.getElem_map _
          have h2 : clampQ mn mx ((getElem q2 i (by omega))) = clampQ mn mx ((getElem q i hi)) := by
            rw [heq]
          omega
        have hpt : ∀ j (hj : j < cl.length),
            (decide ((getElem cl j hj) ≤ mn)) = true →
            (decide ((getElem (q2.map (clampQ mn mx)) j (by rw [List.length_map]; omega)) ≤ mn))
              = true := by
          intro j hj hpj
          have hj2 : j < q.length := by
            rw [← hclen]
            exact hj
          have hcj : (getElem cl j (by omega)) = mn := by
            have h1 := (hcok _ (List.getElem_mem (show j < cl.length by omega))).1
            have h2 : (getElem cl j (by omega)) ≤ mn := by simpa using hpj
            omega
          have hdj := hd0 j hj2 (by omega)
          have hq2j : (getElem q2 j (by omega)) = mn := by
            rw [hq2get j hj2, hcj, hdj]
            omega
          have hcl2 : (getElem (q2.map (clampQ mn mx)) j (by rw [List.length_map]; omega))
              = mn := by
            have hmap : (getElem (q2.map (clampQ mn mx)) j (by rw [List.length_map]; omega))
                = clampQ mn mx ((getElem q2 j (by omega))) := List.getElem_map _
            rw [hmap, hq2j]
            exact clampQ_self_mn mn mx hmx
          rw [hcl2]
          simp
        have hfalse2 : (decide ((getElem cl i (show i < cl.length by omega)) ≤ mn)) = false := by
          simp
          omega
        have htrue2 : (decide ((getElem (q2.map (clampQ mn mx)) i (by rw [List.length_map]; omega))
            ≤ mn)) = true := by
          have hmap : (getElem (q2.map (clampQ mn mx)) i (by rw [List.length_map]; omega))
              = clampQ mn mx ((getElem q2 i (by omega))) := List.getElem_map _
          rw [hmap]
          simpa using hclq2
        have hlen2 : cl.length = (q2.map (clampQ mn mx)).length := by
          simp only [List.length_map]
          rw [hclen, hq2len]
        have hstrict := countP_lt_pointwise (fun x => decide (x ≤ mn))
          cl (q2.map (clampQ mn mx)) hlen2
          hpt i (by rw [hclen]; exact hi) hfalse2 htrue2
        rw [if_neg (by rw [hpass]; exact hq2neq), hpass]
        refine ih q2 hS2 ?_ ?_
        · rw [hq2len]
          exact hfeas
        · rw [hq2len]
          omega
      · push_neg at hov
        have hq2ok : okB mn mx q2 := by
          intro x hx
          rcases List.mem_iff_getElem.1 hx with ⟨j, hjlt, hj⟩
          have hj2 : j < q.length := by omega
          constructor
          · rw [← hj]
            by_cases hcj : mn < (getElem cl j (by omega))
            · have hnop := hov j hj2 hcj
              have hclge : (getElem q2 j (by omega)) ≤ clampQ mn mx ((getElem q2 j (by omega))) :=
                clampQ_ge_self mn mx _ (hq2leMax j hj2)
              have hclmn : mn ≤ clampQ mn mx ((getElem q2 j (by omega))) := clampQ_ge mn mx _
              by_cases hq2mn2 : mn < (getElem q2 j (by omega))
              · omega
              · exfalso
                have hq2eq : (getElem q2 j (by omega)) ≤ mn := by omega
                have : clampQ mn mx ((getElem q2 j (by omega))) ≤ mn := by
                  have hle2 : (getElem q2 j (by omega)) ≤ (getElem cl j (by omega)) := hq2le j hj2
                  have hcm : ∀ m, mx = some m → (getElem q2 j (by omega)) ≤ m :=
                    hq2leMax j hj2
                  cases mx with
                  | none => simp [clampQ]; omega
                  | some m => simp [clampQ]; omega
                omega
            · have hcjeq : (getElem cl j (by omega)) = mn := by
                have h1 := (hcok _ (List.getElem_mem (show j < cl.length by omega))).1
                omega
              have hdj := hd0 j hj2 hcj
              rw [hq2get j hj2, hcjeq, hdj]
              omega
          · intro m hm
            rw [← hj]
            exact hq2leMax j hj2 m hm
        have hdle : ∀ i (h : i < cl.length), (getElem d i (by omega)) ≤ (getElem cl i (by omega)) := by
          intro j hj
          have hj2 : j < q.length := by omega
          by_cases hcj : mn < (getElem cl j (by omega))
          · have hnop := hov j hj2 hcj
            by_contra hgt
            push_neg at hgt
            have hq2j : (getElem q2 j (by omega)) = 0 := by
              rw [hq2get j hj2]
              omega
            have : clampQ mn mx ((getElem q2 j (by omega))) ≤ mn := by
              rw [hq2j]
              cases mx with
              | none => simp [clampQ]
              | some m => simp [clampQ]
            omega
          · have hdj := hd0 j hj2 hcj
            omega
        have hq2sum : q2.sum = t := by
          rw [hq2def, sum_zipWith_sub_eq cl d hdlen.symm hdle]
          omega
        have hclamp2 : q2.map (clampQ mn mx) = q2 := map_clampQ_id mn mx q2 hq2ok
        by_cases hq2q : q2 = q
        · rw [if_pos (by rw [hpass, hq2q])]
          rw [← hq2q]
          exact ⟨hq2sum, hq2ok⟩
        · rw [if_neg (by rw [hpass]; exact hq2q), hpass]
          obtain ⟨fuel2, rfl⟩ : ∃ f2, fuel = f2 + 1 := ⟨fuel - 1, by omega⟩
          rw [iterE]
          have hpass3 := passE_eq_clamp mn mx t q2 (by rw [hclamp2, hq2sum])
          rw [if_pos (by rw [hpass3, hclamp2])]
          exact ⟨hq2sum, hq2ok⟩

/-- With feasible constraints the enforcer preserves the distributed total
exactly and puts every store inside the constraint band. -/
theorem enforce_feasible (mn : ℕ) (mx : Option ℕ) (stock : ℕ)
    (limit : Option ℕ) (q : List ℕ)
    (hmx : ∀ m, mx = some m → mn ≤ m)
    (hfeas_min : mn * q.length ≤ q.sum)
    (hfeas_max : ∀ m, mx = some m → q.sum ≤ m * q.length)
    (hstock : q.sum ≤ stock)
    (hlimit : ∀ l, limit = some l → q.sum ≤ l) :
    (enforce mn mx stock limit q).rows.sum = q.sum ∧
    (∀ x ∈ (enforce mn mx stock limit q).rows,
      mn ≤ x ∧ ∀ m, mx = some m → x ≤ m) := by
  have hiter : (iterE mn mx q.sum (q.length + 3) q).sum = q.sum ∧
      okB mn mx (iterE mn mx q.sum (q.length + 3) q) := by
    by_cases hc : (q.map (clampQ mn mx)).sum ≤ q.sum
    · exact iter_add mn mx q.sum hmx (q.length + 3) q hc hfeas_max
        (fun h => by rw [h]; rfl) (by omega)
    · push_neg at hc
      exact iter_sub mn mx q.sum hmx (q.length + 3) q (le_of_lt hc)
        hfeas_min (by omega)
  have hcap : q.sum ≤ min stock (limit.getD stock) := by
    cases limit with
    | none => simpa using hstock
    | some l =>
      have hl := hlimit l rfl
      simp only [Option.getD]
      exact le_min hstock hl
  rw [enforce]
  simp only
  rw [if_neg (by rw [hiter.1]; omega)]
  constructor
  · exact hiter.1
  · intro x hx
    exact ⟨(hiter.2 x hx).1, fun m hm => (hiter.2 x hx).2 m hm⟩

/-- C7: for every feasible constraint set the ConstraintEnforcer returns a
quantity in [min_per_store, max_per_store] for every store (a null max means
unbounded) while the store-wise total is unchanged; scenario B: quantities
[2, 58, 40] with min_per_store = 5 become [5, 56, 39] — the store at 2 is
raised to 5 and the 3-unit surplus is removed proportionally (2 and 1 units)
from the other two — with the total still 100. -/
theorem C7_constraint_enforcer :
    (∀ (mn : ℕ) (mx : Option ℕ) (stock : ℕ) (limit : Option ℕ) (q : List ℕ),
      (∀ m, mx = some m → mn ≤ m) →
      mn * q.length ≤ q.sum →
      (∀ m, mx = some m → q.sum ≤ m * q.length) →
      q.sum ≤ stock →
      (∀ l, limit = some l → q.sum ≤ l) →
      (enforce mn mx stock limit q).rows.sum = q.sum ∧
      (∀ x ∈ (enforce mn mx stock limit q).rows,
        mn ≤ x ∧ ∀ m, mx = some m → x ≤ m)) ∧
    ((enforce 5 none 100 none [2, 58, 40]).rows = [5, 56, 39] ∧
      (enforce 5 none 100 none [2, 58, 40]).rows.sum = 100 ∧
      (enforce 5 none 100 none [2, 58, 40]).infeasible = false) := by
  refine ⟨?_, by decide, by decide, by decide⟩
  intro mn mx stock limit q hmx h1 h2 h3 h4
  exact enforce_feasible mn mx stock limit q hmx h1 h2 h3 h4

/-- C7 witness: the general theorem applied to scenario B with an explicit
cap of 60 per store. -/
theorem C7_constraint_enforcer_witness :
    (enforce 5 (some 60) 100 none [2, 58, 40]).rows.sum = 100 ∧
    (∀ x ∈ (enforce 5 (some 60) 100 none [2, 58, 40]).rows,
      5 ≤ x ∧ ∀ m, some 60 = some m → x ≤ m) := by
  have h := C7_constraint_enforcer.1 5 (some 60) 100 none [2, 58, 40]
    (by intro m hm; rcases Option.some.inj hm with rfl; decide)
    (by decide)
    (by intro m hm; rcases Option.some.inj hm with rfl; decide)
    (by decide)
    (by intro l hl; cases hl)
  simpa using h
